import Mathlib

/-!
Verification development for the fiverr-chat-buddy repository.

The repository contains three algorithmic cores:
* the SQL function calculate_template_match_score (template match scoring),
* the SQL function find_similar_refined_responses (similarity retrieval),
* the TypeScript helpers in TemplateUpload.tsx (content analyzer,
  content formatter and the bulk import parser).

Each is embedded below as executable Lean definitions that follow the
source line by line, and the stated properties are settled against those
definitions.  Arithmetic on SQL DECIMAL and NUMERIC values is carried out
exactly, over the rationals.  Character case mapping uses the ASCII case
maps, which agree with the source semantics on every input considered
here.
-/

namespace ChatBuddy

/-! ## Shared character helpers -/

/-- Whitespace class of the JavaScript regular expression escape for
whitespace and of the String trim method (WhiteSpace plus LineTerminator
code points of the ECMAScript standard). -/
def jsWs (c : Char) : Bool :=
  c.toNat = 32 || c.toNat = 9 || c.toNat = 10 || c.toNat = 13 ||
  c.toNat = 11 || c.toNat = 12 || c.toNat = 160 || c.toNat = 5760 ||
  (8192 ≤ c.toNat && c.toNat ≤ 8202) || c.toNat = 8232 ||
  c.toNat = 8233 || c.toNat = 8239 || c.toNat = 8287 ||
  c.toNat = 12288 || c.toNat = 65279

/-- ASCII lower case letter test, the character class a-z. -/
def isLowerA (c : Char) : Bool := 97 ≤ c.toNat && c.toNat ≤ 122

/-- ASCII upper case letter test, the character class A-Z. -/
def isUpperA (c : Char) : Bool := 65 ≤ c.toNat && c.toNat ≤ 90

/-- Lower casing of a character list (model of toLowerCase and of the
SQL LOWER function on the inputs considered here). -/
def lowerL (l : List Char) : List Char := l.map Char.toLower

/-- JavaScript String trim: drop leading and trailing whitespace. -/
def jsTrim (l : List Char) : List Char :=
  ((l.dropWhile jsWs).reverse.dropWhile jsWs).reverse

/-! ## SQL LIKE pattern matching

The match scorer tests keywords with
LOWER(client_message) LIKE the pattern percent keyword percent.
LIKE patterns treat the percent sign as an arbitrary sequence, the
underscore as an arbitrary single character, and a backslash as the
default escape character making the next pattern character literal.
The function below implements exactly that; it recurses structurally on
the pattern. -/

def likeM : List Char → List Char → Bool
  | [], s => s.isEmpty
  | '%' :: p, s => s.tails.any (fun t => likeM p t)
  | '_' :: p, s =>
    match s with
    | [] => false
    | _ :: t => likeM p t
  | '\\' :: c :: p, s =>
    match s with
    | [] => false
    | d :: t => c == d && likeM p t
  | c :: p, s =>
    match s with
    | [] => false
    | d :: t => c == d && likeM p t

/-- One keyword test of the match scorer:
LOWER(client_message) LIKE percent, LOWER(keyword), percent. -/
def sqlKwHit (msg kw : List Char) : Bool :=
  likeM ('%' :: (lowerL kw ++ ['%'])) (lowerL msg)

/-- Plain contiguous substring occurrence, used to state the claim
wording (a keyword appearing as a substring of the message). -/
def isSub : List Char → List Char → Bool
  | n, [] => n.isEmpty
  | n, h :: t => n.isPrefixOf (h :: t) || isSub n t

/-! ## Match scorer: calculate_template_match_score

Embedding of the SQL function from the migration files (the later
migration re-creates the identical body with a search_path setting).
A template row carries exactly the columns the function reads; all of
category, client_type, matching_keywords and success_rating are nullable
in the schema and are therefore options. -/

structure TemplateRec where
  id : Nat
  category : Option String
  client_type : Option String
  matching_keywords : Option (List String)
  success_rating : Option ℚ
deriving DecidableEq

structure MsgContext where
  message_type : Option String
  client_type : Option String
deriving DecidableEq

/-- SELECT * INTO template_record FROM message_templates WHERE id = template_id. -/
def lookupTemplate (store : List TemplateRec) (tid : Nat) : Option TemplateRec :=
  store.find? (fun t => t.id == tid)

/-- Keyword similarity block of the SQL function.  In SQL an empty array
has NULL array_length, the guard total_keywords greater than zero then
fails and content_similarity stays zero; with a list model this is the
same as guarding on a positive length. -/
def keywordSim (kws : List String) (msg : String) : ℚ :=
  if 0 < kws.length then
    (kws.countP (fun k => sqlKwHit msg.data k.data) : ℚ) / (kws.length : ℚ)
  else 0

/-- Context bonus block: plus 0.2 when the message_type key is present
and equals the template category, plus 0.1 when the client_type key is
present and equals the template client_type.  A NULL template column
never compares equal in SQL. -/
def contextBonus (t : TemplateRec) (ctx : MsgContext) : ℚ :=
  (match ctx.message_type, t.category with
   | some m, some c => if m = c then (0.2 : ℚ) else 0
   | _, _ => 0) +
  (match ctx.client_type, t.client_type with
   | some m, some c => if m = c then (0.1 : ℚ) else 0
   | _, _ => 0)

/-- Success boost factor: 1 + (success_rating - 3) * 0.1 when the rating
is present, otherwise the score is left unchanged. -/
def ratingBoost : Option ℚ → ℚ
  | none => 1
  | some v => 1 + (v - 3) * 0.1

/-- Score of a found template row before the final LEAST clamp. -/
def rawMatchScore (t : TemplateRec) (msg : String) (ctx : MsgContext) : ℚ :=
  ((match t.matching_keywords with
    | none => 0
    | some kws => keywordSim kws msg) * 0.6
   + contextBonus t ctx * 0.4) * ratingBoost t.success_rating

/-- The SQL function calculate_template_match_score: zero when the
template id is not found, otherwise LEAST(final_score, 1.0). -/
def calculate_template_match_score (store : List TemplateRec) (tid : Nat)
    (msg : String) (ctx : MsgContext) : ℚ :=
  match lookupTemplate store tid with
  | none => 0
  | some t => min (rawMatchScore t msg ctx) 1

/-! Spec side definitions for the refinement claim about the scorer:
the claim describes keyword matching as case insensitive substring
occurrence, which is compared below with the LIKE based source. -/

/-- Keyword fraction as worded by the claim: the number of template
keywords appearing as case insensitive substrings of the message over
the number of template keywords, zero when there are none. -/
def specKwFrac (t : TemplateRec) (msg : String) : ℚ :=
  match t.matching_keywords with
  | none => 0
  | some kws =>
    if kws.length = 0 then 0
    else (kws.countP (fun k => isSub (lowerL k.data) (lowerL msg.data)) : ℚ) /
      (kws.length : ℚ)

/-- Context bonus as worded by the claim. -/
def specBonus (t : TemplateRec) (ctx : MsgContext) : ℚ :=
  (if ctx.message_type ≠ none ∧ ctx.message_type = t.category then (0.2 : ℚ) else 0) +
  (if ctx.client_type ≠ none ∧ ctx.client_type = t.client_type then (0.1 : ℚ) else 0)

/-- Match score exactly as worded by the claim, with substring keyword
matching. -/
def specMatchScore (t : TemplateRec) (msg : String) (ctx : MsgContext) : ℚ :=
  min ((specKwFrac t msg * 0.6 + specBonus t ctx * 0.4) * ratingBoost t.success_rating) 1

/-- Absence of the LIKE metacharacters (percent, underscore and the
escape backslash) from a character list. -/
def wcFree (l : List Char) : Prop := ∀ c ∈ l, c ≠ '%' ∧ c ≠ '_' ∧ c ≠ '\\'

instance (l : List Char) : Decidable (wcFree l) := by
  unfold wcFree
  infer_instance

/-! ### Relating LIKE containment and substring containment -/

theorem tails_any_isEmpty (s : List Char) : s.tails.any (fun t => t.isEmpty) = true := by
  induction s with
  | nil => decide
  | cons c t ih => simp [List.tails, List.any_append, ih]

theorem likeM_nil_pat (s : List Char) : likeM [] s = s.isEmpty := rfl

/-- A pattern that is a wildcard free literal followed by one percent
matches exactly the strings the literal is a prefix of. -/
theorem likeM_lit_append (k : List Char) (hk : wcFree k) (s : List Char) :
    likeM (k ++ ['%']) s = k.isPrefixOf s := by
  induction k generalizing s with
  | nil =>
    have h1 : ([] : List Char).isPrefixOf s = true := by cases s <;> rfl
    rw [List.nil_append, h1]
    show s.tails.any (fun t => likeM [] t) = true
    simpa [likeM_nil_pat] using tails_any_isEmpty s
  | cons c k ih =>
    obtain ⟨hc1, hc2, hc3⟩ := hk c (List.mem_cons_self c k)
    have hk' : wcFree k := fun d hd => hk d (List.mem_cons_of_mem c hd)
    cases s with
    | nil =>
      simp only [List.cons_append]
      rw [likeM.eq_def]
      simp [hc1, hc2, hc3, List.isPrefixOf]
    | cons d t =>
      simp only [List.cons_append]
      rw [likeM.eq_def]
      simp [hc1, hc2, hc3, List.isPrefixOf, ih hk']

theorem isSub_eq_tails_any (n s : List Char) :
    isSub n s = s.tails.any (fun t => n.isPrefixOf t) := by
  induction s with
  | nil =>
    show n.isEmpty = (n.isPrefixOf [] || false)
    cases n <;> rfl
  | cons c t ih => simp [isSub, List.tails, ih]

theorem any_congr_mem {α : Type} (l : List α) (f g : α → Bool) (h : ∀ x ∈ l, f x = g x) :
    l.any f = l.any g := by
  induction l with
  | nil => rfl
  | cons a t ih =>
    simp only [List.any_cons, h a (List.mem_cons_self a t),
      ih (fun x hx => h x (List.mem_cons_of_mem a hx))]

/-- For a wildcard free keyword the LIKE test of the scorer is exactly
substring occurrence. -/
theorem likeM_pct_wrap (k s : List Char) (hk : wcFree k) :
    likeM ('%' :: (k ++ ['%'])) s = isSub k s := by
  show s.tails.any (fun t => likeM (k ++ ['%']) t) = isSub k s
  rw [isSub_eq_tails_any]
  exact any_congr_mem _ _ _ (fun t _ => likeM_lit_append k hk t)

theorem char_toNat_injective {a b : Char} (h : a.toNat = b.toNat) : a = b := by
  have h2 := congrArg Char.ofNat h
  rwa [Char.ofNat_toNat, Char.ofNat_toNat] at h2

theorem toLower_toNat (c : Char) :
    (Char.toLower c).toNat =
      if 65 ≤ c.toNat ∧ c.toNat ≤ 90 then c.toNat + 32 else c.toNat := by
  simp only [Char.toLower]
  by_cases h : 65 ≤ c.toNat ∧ c.toNat ≤ 90
  · rw [if_pos (by omega : c.toNat ≥ 65 ∧ c.toNat ≤ 90), if_pos h]
    have hv : (c.toNat + 32).isValidChar := Or.inl (by omega)
    simp only [Char.toNat] at hv ⊢
    simp [Char.ofNat, hv, Char.ofNatAux]
    rfl
  · rw [if_neg (by omega : ¬(c.toNat ≥ 65 ∧ c.toNat ≤ 90)), if_neg h]

theorem toLower_ne_special (d x : Char) (hx : ¬(97 ≤ x.toNat ∧ x.toNat ≤ 122))
    (hd : d ≠ x) : Char.toLower d ≠ x := by
  intro hEq
  have h := congrArg Char.toNat hEq
  rw [toLower_toNat] at h
  split at h
  case isTrue hu => omega
  case isFalse => exact hd (char_toNat_injective h)

theorem toLower_wcFree (l : List Char) (hl : wcFree l) : wcFree (lowerL l) := by
  intro c hc
  simp only [lowerL, List.mem_map] at hc
  obtain ⟨d, hd, hdc⟩ := hc
  obtain ⟨h1, h2, h3⟩ := hl d hd
  subst hdc
  exact ⟨toLower_ne_special d '%' (by decide) h1,
    toLower_ne_special d '_' (by decide) h2,
    toLower_ne_special d '\\' (by decide) h3⟩

theorem sqlKwHit_eq_isSub (msg kw : List Char) (hk : wcFree kw) :
    sqlKwHit msg kw = isSub (lowerL kw) (lowerL msg) :=
  likeM_pct_wrap (lowerL kw) (lowerL msg) (toLower_wcFree kw hk)

/-- C2 counterexample: a keyword consisting of the single character
percent.  The LIKE pattern built from it matches every message, so the
source scores the message abc at 0.6, while the claim wording counts
substring occurrences and yields 0. -/
theorem c2_substring_wording_cex :
    calculate_template_match_score [⟨1, none, none, some ["%"], none⟩] 1 "abc" ⟨none, none⟩
        = 3 / 5 ∧
    specMatchScore ⟨1, none, none, some ["%"], none⟩ "abc" ⟨none, none⟩ = 0 := by
  constructor
  · have h : sqlKwHit "abc".data "%".data = true := by decide
    have hfind : lookupTemplate [⟨1, none, none, some ["%"], none⟩] 1 =
        some ⟨1, none, none, some ["%"], none⟩ := rfl
    rw [calculate_template_match_score, hfind]
    norm_num [rawMatchScore, keywordSim, contextBonus, ratingBoost,
      List.countP, List.countP.go, h]
  · have h : isSub (lowerL "%".data) (lowerL "abc".data) = false := by decide
    norm_num [specMatchScore, specKwFrac, specBonus, ratingBoost,
      List.countP, List.countP.go, h]

/-- C2 amended: a missing template scores zero, and for a found template
all of whose keywords are free of LIKE metacharacters the score is
exactly the formula of the claim with substring keyword matching. -/
theorem c2_score_formula_amended (store : List TemplateRec) (tid : Nat)
    (msg : String) (ctx : MsgContext) :
    (lookupTemplate store tid = none →
      calculate_template_match_score store tid msg ctx = 0) ∧
    (∀ t, lookupTemplate store tid = some t →
      (∀ kws, t.matching_keywords = some kws → ∀ k ∈ kws, wcFree k.data) →
      calculate_template_match_score store tid msg ctx = specMatchScore t msg ctx) := by
  constructor
  · intro hnone
    rw [calculate_template_match_score, hnone]
  · intro t hfound hfree
    simp only [calculate_template_match_score, hfound]
    unfold specMatchScore rawMatchScore
    have hkw : (match t.matching_keywords with
        | none => (0:ℚ)
        | some kws => keywordSim kws msg) = specKwFrac t msg := by
      unfold specKwFrac
      rcases hk : t.matching_keywords with _ | kws
      · simp
      · simp only
        unfold keywordSim
        have hcnt : kws.countP (fun k => sqlKwHit msg.data k.data) =
            kws.countP (fun k => isSub (lowerL k.data) (lowerL msg.data)) := by
          apply List.countP_congr
          intro k hkmem
          rw [sqlKwHit_eq_isSub msg.data k.data (hfree kws hk k hkmem)]
        rcases Nat.eq_zero_or_pos kws.length with hz | hp
        · rw [if_neg (by omega), if_pos hz]
        · rw [if_pos hp, if_neg (by omega), hcnt]
    have hcb : contextBonus t ctx = specBonus t ctx := by
      unfold contextBonus specBonus
      rcases ctx.message_type with _ | m <;> rcases t.category with _ | c <;>
        rcases ctx.client_type with _ | m2 <;> rcases t.client_type with _ | c2 <;>
        simp
    rw [hkw, hcb]

/-- Witness instantiating the amended score formula theorem. -/
theorem c2_score_formula_amended_witness :
    calculate_template_match_score
        [⟨1, some "greeting", none, some ["hi"], none⟩] 1 "hi there" ⟨some "greeting", none⟩ =
      specMatchScore ⟨1, some "greeting", none, some ["hi"], none⟩ "hi there"
        ⟨some "greeting", none⟩ :=
  (c2_score_formula_amended [⟨1, some "greeting", none, some ["hi"], none⟩] 1
    "hi there" ⟨some "greeting", none⟩).2 ⟨1, some "greeting", none, some ["hi"], none⟩ rfl
    (fun kws hk => by
      cases Option.some.inj hk
      intro k hkk
      simp only [List.mem_singleton] at hkk
      subst hkk
      decide)

/-! ### Component bounds for the match scorer -/

theorem keywordSim_nonneg (kws : List String) (msg : String) : 0 ≤ keywordSim kws msg := by
  unfold keywordSim
  split
  · exact div_nonneg (by positivity) (by positivity)
  · exact le_refl 0

theorem contextBonus_nonneg (t : TemplateRec) (ctx : MsgContext) : 0 ≤ contextBonus t ctx := by
  unfold contextBonus
  have h1 : (0 : ℚ) ≤ (match ctx.message_type, t.category with
      | some m, some c => if m = c then (0.2 : ℚ) else 0
      | _, _ => 0) := by
    rcases ctx.message_type with _ | m <;> rcases t.category with _ | c <;> simp <;> split <;> norm_num
  have h2 : (0 : ℚ) ≤ (match ctx.client_type, t.client_type with
      | some m, some c => if m = c then (0.1 : ℚ) else 0
      | _, _ => 0) := by
    rcases ctx.client_type with _ | m <;> rcases t.client_type with _ | c <;> simp <;> split <;> norm_num
  linarith

theorem ratingBoost_nonneg (r : Option ℚ)
    (hr : r = none ∨ ∃ v, r = some v ∧ 1 ≤ v ∧ v ≤ 5) : 0 ≤ ratingBoost r := by
  rcases hr with h | ⟨v, hv, h1, h5⟩
  · subst h; norm_num [ratingBoost]
  · subst hv; unfold ratingBoost; nlinarith

theorem rawMatchScore_nonneg (t : TemplateRec) (msg : String) (ctx : MsgContext)
    (hr : t.success_rating = none ∨ ∃ v, t.success_rating = some v ∧ 1 ≤ v ∧ v ≤ 5) :
    0 ≤ rawMatchScore t msg ctx := by
  unfold rawMatchScore
  have hb := contextBonus_nonneg t ctx
  have hk : (0 : ℚ) ≤ (match t.matching_keywords with
      | none => 0
      | some kws => keywordSim kws msg) := by
    rcases t.matching_keywords with _ | kws
    · simp
    · simpa using keywordSim_nonneg kws msg
  have hboost := ratingBoost_nonneg t.success_rating hr
  have : (0 : ℚ) ≤ (match t.matching_keywords with
      | none => 0
      | some kws => keywordSim kws msg) * 0.6 + contextBonus t ctx * 0.4 := by nlinarith
  nlinarith

/-- C1: for a success rating that is absent or within one to five the
returned score lies in the unit interval; the returned score is at most
one unconditionally; and for a rating outside that range the raw score
before the LEAST clamp can exceed one while the returned value still
does not. -/
theorem c1_score_bounds :
    (∀ (store : List TemplateRec) (tid : Nat) (msg : String) (ctx : MsgContext),
      (∀ t, lookupTemplate store tid = some t →
        t.success_rating = none ∨ ∃ v, t.success_rating = some v ∧ 1 ≤ v ∧ v ≤ 5) →
      0 ≤ calculate_template_match_score store tid msg ctx ∧
        calculate_template_match_score store tid msg ctx ≤ 1) ∧
    (∀ (store : List TemplateRec) (tid : Nat) (msg : String) (ctx : MsgContext),
      calculate_template_match_score store tid msg ctx ≤ 1) ∧
    (∃ (t : TemplateRec) (msg : String) (ctx : MsgContext),
      (∀ v, t.success_rating = some v → ¬(1 ≤ v ∧ v ≤ 5)) ∧
      1 < rawMatchScore t msg ctx ∧
      calculate_template_match_score [t] t.id msg ctx ≤ 1) := by
  have hle : ∀ (store : List TemplateRec) (tid : Nat) (msg : String) (ctx : MsgContext),
      calculate_template_match_score store tid msg ctx ≤ 1 := by
    intro store tid msg ctx
    unfold calculate_template_match_score
    rcases lookupTemplate store tid with _ | t
    · norm_num
    · exact min_le_right _ _
  refine ⟨?_, hle, ?_⟩
  · intro store tid msg ctx hr
    refine ⟨?_, hle store tid msg ctx⟩
    unfold calculate_template_match_score
    rcases hfind : lookupTemplate store tid with _ | t
    · norm_num
    · exact le_min (rawMatchScore_nonneg t msg ctx (hr t hfind)) (by norm_num)
  · refine ⟨⟨1, some "greeting", none, some ["hi"], some 9⟩, "hi", ⟨some "greeting", none⟩, ?_, ?_, ?_⟩
    · intro v hv hrange
      have : v = (9 : ℚ) := by simpa using hv.symm
      subst this
      exact absurd hrange.2 (by norm_num)
    · have h : sqlKwHit "hi".data "hi".data = true := by decide
      norm_num [rawMatchScore, keywordSim, contextBonus, ratingBoost,
        List.countP, List.countP.go, h]
    · exact hle _ _ _ _

/-- Witness instantiating the bounded part of the previous theorem. -/
theorem c1_score_bounds_witness :
    0 ≤ calculate_template_match_score
        [⟨1, some "greeting", none, some ["hi"], none⟩] 1 "hi there" ⟨none, none⟩ ∧
      calculate_template_match_score
        [⟨1, some "greeting", none, some ["hi"], none⟩] 1 "hi there" ⟨none, none⟩ ≤ 1 :=
  c1_score_bounds.1 [⟨1, some "greeting", none, some ["hi"], none⟩] 1 "hi there" ⟨none, none⟩
    (fun t ht => Or.inl ((Option.some.inj ht) ▸ rfl))

/-! ### Monotonicity of the match scorer in the matched keyword set -/

theorem keywordSim_mono (kws : List String) (m1 m2 : String)
    (h : ∀ k ∈ kws, sqlKwHit m1.data k.data = true → sqlKwHit m2.data k.data = true) :
    keywordSim kws m1 ≤ keywordSim kws m2 := by
  unfold keywordSim
  split
  case isTrue hpos =>
    apply div_le_div_of_nonneg_right ?_ (by positivity)
    exact_mod_cast List.countP_mono_left h
  case isFalse => exact le_refl 0

/-- C8: with the keyword list, the context and a rating that is absent
or within one to five held fixed, a message matching a superset of the
matched keywords never scores lower. -/
theorem c8_monotone_in_matches (store : List TemplateRec) (tid : Nat) (t : TemplateRec)
    (ctx : MsgContext) (m1 m2 : String)
    (hfound : lookupTemplate store tid = some t)
    (hr : t.success_rating = none ∨ ∃ v, t.success_rating = some v ∧ 1 ≤ v ∧ v ≤ 5)
    (hmono : ∀ kws, t.matching_keywords = some kws → ∀ k ∈ kws,
      sqlKwHit m1.data k.data = true → sqlKwHit m2.data k.data = true) :
    calculate_template_match_score store tid m1 ctx ≤
      calculate_template_match_score store tid m2 ctx := by
  unfold calculate_template_match_score
  rw [hfound]
  refine min_le_min ?_ (le_refl 1)
  unfold rawMatchScore
  have hboost := ratingBoost_nonneg t.success_rating hr
  refine mul_le_mul_of_nonneg_right ?_ hboost
  have hsim : (match t.matching_keywords with
      | none => (0 : ℚ)
      | some kws => keywordSim kws m1) ≤ (match t.matching_keywords with
      | none => (0 : ℚ)
      | some kws => keywordSim kws m2) := by
    rcases hk : t.matching_keywords with _ | kws
    · simp
    · simpa using keywordSim_mono kws m1 m2 (hmono kws hk)
  nlinarith

/-- Witness instantiating the monotonicity theorem. -/
theorem c8_monotone_in_matches_witness :
    calculate_template_match_score [⟨1, none, none, some ["budget"], none⟩] 1 "hello" ⟨none, none⟩ ≤
      calculate_template_match_score [⟨1, none, none, some ["budget"], none⟩] 1
        "what is your budget" ⟨none, none⟩ :=
  c8_monotone_in_matches [⟨1, none, none, some ["budget"], none⟩] 1
    ⟨1, none, none, some ["budget"], none⟩ ⟨none, none⟩ "hello" "what is your budget"
    rfl (Or.inl rfl)
    (fun kws hk => by
      cases Option.some.inj hk
      intro k hkk h1
      simp only [List.mem_singleton] at hkk
      subst hkk
      decide)

/-! ## Similarity retriever: find_similar_refined_responses

Embedding of the SQL function.  The word arrays come from
string_to_array(LOWER(text), space): splitting on the single space
character, keeping empty fragments, with the empty string giving the
empty array.  In SQL array_length of an empty array is NULL, GREATEST
ignores NULL arguments and is NULL when both are, and NULL propagates
through the arithmetic; the word score is therefore an option. -/

/-- string_to_array(LOWER(s), space). -/
def sqlWords (s : String) : List (List Char) :=
  if s.data = [] then [] else (lowerL s.data).splitOn ' '

structure RefinedRow where
  id : Nat
  user_id : Nat
  original_client_message : String
  refined_response : String
  message_type : Option String
deriving DecidableEq

/-- One row of the RETURNS TABLE of the SQL function. -/
structure SimilarRow where
  id : Nat
  original_client_message : String
  refined_response : String
  similarity_score : Option ℚ
deriving DecidableEq

/-- The scalar subquery: count of client words equal to some stored
word, divided by the GREATEST of the two array lengths, times 0.7. -/
def wordScorePart (client stored : String) : Option ℚ :=
  let cw := sqlWords client
  let sw := sqlWords stored
  let cnt : ℕ := cw.countP (fun w => sw.contains w)
  match cw.length, sw.length with
  | 0, 0 => none
  | 0, m => some ((cnt : ℚ) / (m : ℚ) * 0.7)
  | n, 0 => some ((cnt : ℚ) / (n : ℚ) * 0.7)
  | n, m => some ((cnt : ℚ) / ((max n m : ℕ) : ℚ) * 0.7)

/-- The CASE expression: 0.3 when the stored message_type equals the
parameter; a NULL on either side never compares equal in SQL. -/
def typeBonus (rowType paramType : Option String) : ℚ :=
  match rowType, paramType with
  | some a, some b => if a = b then 0.3 else 0.0
  | _, _ => 0.0

/-- similarity_score of one candidate row; NULL propagates through the
addition. -/
def similarityScore (clientMsg : String) (messageType : Option String)
    (row : RefinedRow) : Option ℚ :=
  match wordScorePart clientMsg row.original_client_message with
  | none => none
  | some w => some (typeBonus row.message_type messageType + w)

/-- Sort key for ORDER BY similarity_score DESC: in Postgres a DESC
order puts NULL first, so NULL ranks above every number. -/
def simRank (o : Option ℚ) : WithTop ℚ :=
  match o with
  | none => ⊤
  | some q => (q : WithTop ℚ)

/-- Descending order on output rows. -/
def simOrder (a b : SimilarRow) : Prop :=
  simRank b.similarity_score ≤ simRank a.similarity_score

instance : DecidableRel simOrder := fun a b => by
  unfold simOrder
  infer_instance

instance : IsTotal SimilarRow simOrder :=
  ⟨fun a b => (le_total (simRank b.similarity_score) (simRank a.similarity_score)).elim
    Or.inl Or.inr⟩

instance : IsTrans SimilarRow simOrder :=
  ⟨fun _ _ _ h1 h2 => le_trans h2 h1⟩

/-- The SQL function: owned rows, scored, ordered by similarity_score
descending, limited.  Ties are broken arbitrarily by the SQL engine;
the embedding realizes one admissible order with a stable sort. -/
def find_similar_refined_responses (store : List RefinedRow) (uid : Nat)
    (clientMsg : String) (messageType : Option String) (lim : Nat) : List SimilarRow :=
  (List.insertionSort simOrder
    ((store.filter (fun r => r.user_id == uid)).map
      (fun r => ⟨r.id, r.original_client_message, r.refined_response,
        similarityScore clientMsg messageType r⟩))).take lim

/-! Spec side definitions for the retriever claims: the claim wording
speaks of whitespace delimited words, which drops empty fragments and
splits on every kind of whitespace, unlike the single space split with
empty fragments performed by the source. -/

/-- Maximal runs of characters satisfying p (structural helper shared
by the tokenizers). -/
def runsAux (p : Char → Bool) (cur : List Char) : List Char → List (List Char)
  | [] => if cur.isEmpty then [] else [cur.reverse]
  | c :: t =>
    if p c then runsAux p (c :: cur) t
    else if cur.isEmpty then runsAux p [] t
    else cur.reverse :: runsAux p [] t

def runsOf (p : Char → Bool) (l : List Char) : List (List Char) := runsAux p [] l

/-- Modelled from the claim wording: whitespace delimited lower cased
words of a string. -/
def wsWords (s : String) : List (List Char) :=
  runsOf (fun c => !jsWs c) (lowerL s.data)

/-- Similarity value exactly as worded by the claim. -/
def specSimilarity (clientMsg : String) (messageType : Option String)
    (row : RefinedRow) : ℚ :=
  (if row.message_type = messageType then (0.3 : ℚ) else 0) +
  ((wsWords clientMsg).countP
      (fun w => (wsWords row.original_client_message).contains w) : ℚ) /
    ((max (wsWords clientMsg).length (wsWords row.original_client_message).length : ℕ) : ℚ)
    * 0.7

/-! ### Theorems about the retriever -/

theorem simScore_tab_val : similarityScore "a\tb" (some "inquiry")
    ⟨5, 7, "a b", "resp", some "inquiry"⟩ = some (3/10) := by
  have hc : (sqlWords "a\tb").countP (fun w => (sqlWords "a b").contains w) = 0 := by decide
  have h1 : (sqlWords "a\tb").length = 1 := by decide
  have h2 : (sqlWords "a b").length = 2 := by decide
  simp only [similarityScore, wordScorePart, typeBonus, hc, h1, h2]
  norm_num

theorem specSimilarity_tab_val : specSimilarity "a\tb" (some "inquiry")
    ⟨5, 7, "a b", "resp", some "inquiry"⟩ = 1 := by
  have hc : (wsWords "a\tb").countP (fun w => (wsWords "a b").contains w) = 2 := by decide
  have h1 : (wsWords "a\tb").length = 2 := by decide
  have h2 : (wsWords "a b").length = 2 := by decide
  simp only [specSimilarity, hc, h1, h2]
  norm_num

/-- C5 counterexample: the source splits on single spaces only, so a
tab separated client message is one word.  Against the stored message
a b with matching type the source returns score 0.3 while the claim
formula over whitespace delimited words gives 1. -/
theorem c5_whitespace_wording_cex :
    find_similar_refined_responses [⟨5, 7, "a b", "resp", some "inquiry"⟩] 7 "a\tb"
        (some "inquiry") 3 =
      [⟨5, "a b", "resp", some (3/10)⟩] ∧
    specSimilarity "a\tb" (some "inquiry") ⟨5, 7, "a b", "resp", some "inquiry"⟩ = 1 ∧
    (3 : ℚ)/10 ≠ 1 := by
  refine ⟨?_, specSimilarity_tab_val, by norm_num⟩
  simp [find_similar_refined_responses, List.insertionSort, List.orderedInsert,
    simScore_tab_val]

/-- The similarity score written as one closed formula over the single
space word arrays of the source. -/
theorem simScore_formula (clientMsg : String) (mt : Option String) (row : RefinedRow) :
    similarityScore clientMsg mt row =
      (if (sqlWords clientMsg).length = 0 ∧ (sqlWords row.original_client_message).length = 0
       then none
       else some ((match row.message_type, mt with
           | some a, some b => if a = b then (0.3 : ℚ) else 0.0
           | _, _ => 0.0) +
         ((sqlWords clientMsg).countP
             (fun w => (sqlWords row.original_client_message).contains w) : ℚ) /
           ((max (sqlWords clientMsg).length (sqlWords row.original_client_message).length : ℕ) : ℚ)
           * 0.7)) := by
  unfold similarityScore wordScorePart typeBonus
  rcases h1 : (sqlWords clientMsg).length with _ | n <;>
    rcases h2 : (sqlWords row.original_client_message).length with _ | m <;>
    simp [h1, h2, add_comm]

/-- C5 amended: every output row comes from a row owned by the given
user and carries the score of the corrected formula (single space
split, empty fragments kept, client words counted with multiplicity,
NULL exactly when both messages are empty); the output is sorted by
descending score with NULL first and has at most the requested
length. -/
theorem c5_retriever_amended (store : List RefinedRow) (uid : Nat) (clientMsg : String)
    (messageType : Option String) (lim : Nat) :
    (∀ r ∈ find_similar_refined_responses store uid clientMsg messageType lim,
      ∃ row ∈ store, row.user_id = uid ∧ r.id = row.id ∧
        r.original_client_message = row.original_client_message ∧
        r.refined_response = row.refined_response ∧
        r.similarity_score =
          (if (sqlWords clientMsg).length = 0 ∧ (sqlWords row.original_client_message).length = 0
           then none
           else some ((match row.message_type, messageType with
               | some a, some b => if a = b then (0.3 : ℚ) else 0.0
               | _, _ => 0.0) +
             ((sqlWords clientMsg).countP
                 (fun w => (sqlWords row.original_client_message).contains w) : ℚ) /
               ((max (sqlWords clientMsg).length
                   (sqlWords row.original_client_message).length : ℕ) : ℚ) * 0.7))) ∧
    List.Sorted simOrder (find_similar_refined_responses store uid clientMsg messageType lim) ∧
    (find_similar_refined_responses store uid clientMsg messageType lim).length ≤ lim := by
  refine ⟨?_, ?_, ?_⟩
  · intro r hr
    have hr2 : r ∈ List.insertionSort simOrder
        ((store.filter (fun x => x.user_id == uid)).map
          (fun x => (⟨x.id, x.original_client_message, x.refined_response,
            similarityScore clientMsg messageType x⟩ : SimilarRow))) :=
      List.mem_of_mem_take hr
    have hr3 := (List.perm_insertionSort simOrder _).mem_iff.mp hr2
    obtain ⟨row, hrowmem, hroweq⟩ := List.mem_map.mp hr3
    have hfil := List.mem_filter.mp hrowmem
    refine ⟨row, hfil.1, by simpa using hfil.2, ?_, ?_, ?_, ?_⟩ <;>
      rw [← hroweq] <;> simp [simScore_formula]
  · exact List.Pairwise.sublist (List.take_sublist _ _)
      (List.sorted_insertionSort simOrder _)
  · exact List.length_take_le _ _

/-- Witness instantiating the membership part of the amended retriever
theorem on a one row store. -/
theorem c5_retriever_amended_witness :
    ∃ row ∈ [(⟨5, 7, "a b", "resp", some "inquiry"⟩ : RefinedRow)], row.user_id = 7 ∧
      (⟨5, "a b", "resp", similarityScore "a b" (some "inquiry")
          ⟨5, 7, "a b", "resp", some "inquiry"⟩⟩ : SimilarRow).id = row.id ∧
      (⟨5, "a b", "resp", similarityScore "a b" (some "inquiry")
          ⟨5, 7, "a b", "resp", some "inquiry"⟩⟩ : SimilarRow).original_client_message =
        row.original_client_message ∧
      (⟨5, "a b", "resp", similarityScore "a b" (some "inquiry")
          ⟨5, 7, "a b", "resp", some "inquiry"⟩⟩ : SimilarRow).refined_response =
        row.refined_response ∧
      (⟨5, "a b", "resp", similarityScore "a b" (some "inquiry")
          ⟨5, 7, "a b", "resp", some "inquiry"⟩⟩ : SimilarRow).similarity_score =
          (if (sqlWords "a b").length = 0 ∧ (sqlWords row.original_client_message).length = 0
           then none
           else some ((match row.message_type, some "inquiry" with
               | some a, some b => if a = b then (0.3 : ℚ) else 0.0
               | _, _ => 0.0) +
             ((sqlWords "a b").countP
                 (fun w => (sqlWords row.original_client_message).contains w) : ℚ) /
               ((max (sqlWords "a b").length
                   (sqlWords row.original_client_message).length : ℕ) : ℚ) * 0.7)) :=
  (c5_retriever_amended [⟨5, 7, "a b", "resp", some "inquiry"⟩] 7 "a b" (some "inquiry") 3).1
    ⟨5, "a b", "resp", similarityScore "a b" (some "inquiry") ⟨5, 7, "a b", "resp", some "inquiry"⟩⟩
    (List.Mem.head _)

theorem simScore_urgent_val : similarityScore "urgent delivery needed" (some "inquiry")
    ⟨1, 7, "urgent delivery update", "resp", some "inquiry"⟩ = some (23/30) := by
  have hc : (sqlWords "urgent delivery needed").countP
      (fun w => (sqlWords "urgent delivery update").contains w) = 2 := by decide
  have h1 : (sqlWords "urgent delivery needed").length = 3 := by decide
  have h2 : (sqlWords "urgent delivery update").length = 3 := by decide
  simp only [similarityScore, wordScorePart, typeBonus, hc, h1, h2]
  norm_num

/-- C6 counterexample: only two of the three client words occur in the
stored message, so the score is 0.3 plus two thirds of 0.7, that is
23/30, not 1. -/
theorem c6_similarity_value_cex :
    find_similar_refined_responses [⟨1, 7, "urgent delivery update", "resp", some "inquiry"⟩] 7
        "urgent delivery needed" (some "inquiry") 3 =
      [⟨1, "urgent delivery update", "resp", some (23/30)⟩] ∧
    (23 : ℚ)/30 ≠ 1 := by
  refine ⟨?_, by norm_num⟩
  simp [find_similar_refined_responses, List.insertionSort, List.orderedInsert,
    simScore_urgent_val]

/-- C6 amended: the concrete retrieval yields similarity 23/30, which
does not exceed 1. -/
theorem c6_similarity_value_amended :
    find_similar_refined_responses [⟨1, 7, "urgent delivery update", "resp", some "inquiry"⟩] 7
        "urgent delivery needed" (some "inquiry") 3 =
      [⟨1, "urgent delivery update", "resp", some (23/30)⟩] ∧
    (23 : ℚ)/30 ≤ 1 := by
  refine ⟨?_, by norm_num⟩
  simp [find_similar_refined_responses, List.insertionSort, List.orderedInsert,
    simScore_urgent_val]

/-- C10 counterexample: when both the client message and a stored
message are empty both array lengths are NULL, GREATEST of two NULL
values is NULL, and the NULL similarity reaches the output row. -/
theorem c10_null_similarity_cex :
    similarityScore "" none ⟨1, 7, "", "r", none⟩ = none ∧
    find_similar_refined_responses [⟨1, 7, "", "r", none⟩] 7 "" none 3 =
      [⟨1, "", "r", none⟩] := by
  constructor
  · rfl
  · simp [find_similar_refined_responses, List.insertionSort, List.orderedInsert]
    rfl

theorem splitOn_space_ne_nil (l : List Char) : l.splitOn ' ' ≠ [] :=
  List.splitOnP_ne_nil _ l

/-- C10 amended: the similarity is NULL exactly when both messages are
the empty string; whenever at least one is nonempty the other NULL
length is ignored by GREATEST and the score is a defined rational. -/
theorem c10_similarity_defined_amended (client : String) (mt : Option String)
    (row : RefinedRow) :
    (client = "" → row.original_client_message = "" → similarityScore client mt row = none) ∧
    ((client ≠ "" ∨ row.original_client_message ≠ "") →
      ∃ q, similarityScore client mt row = some q) := by
  constructor
  · intro h1 h2
    subst h1
    rw [similarityScore.eq_def, wordScorePart.eq_def]
    simp [h2, sqlWords]
  · intro h
    have hlen : (sqlWords client).length ≠ 0 ∨
        (sqlWords row.original_client_message).length ≠ 0 := by
      rcases h with h | h
      · left
        have hd : client.data ≠ [] := fun hnil => h (by
          cases client with
          | mk d => simp at hnil; simp [hnil])
        simp only [sqlWords, if_neg hd]
        intro hzero
        exact splitOn_space_ne_nil (lowerL client.data)
          (List.length_eq_zero.mp (by simpa using hzero))
      · right
        have hd : row.original_client_message.data ≠ [] := fun hnil => h (by
          cases hrow : row.original_client_message with
          | mk d => rw [hrow] at hnil; simp at hnil; simp [hnil])
        simp only [sqlWords, if_neg hd]
        intro hzero
        exact splitOn_space_ne_nil (lowerL row.original_client_message.data)
          (List.length_eq_zero.mp (by simpa using hzero))
    rw [simScore_formula]
    rw [if_neg (by tauto)]
    exact ⟨_, rfl⟩

/-- Witness instantiating the defined case of the amended NULL
behavior theorem. -/
theorem c10_similarity_defined_amended_witness :
    ∃ q, similarityScore "hello" none ⟨1, 7, "", "r", none⟩ = some q :=
  (c10_similarity_defined_amended "hello" none ⟨1, 7, "", "r", none⟩).2 (Or.inl (by decide))

/-! ## Content analyzer: analyzeTemplateContent

Embedding of the TypeScript analyzer from TemplateUpload.tsx.  Keyword
extraction takes the maximal runs of word characters (the regex word
token pattern), keeps tokens longer than three characters that are not
stop words, lower cases, deduplicates keeping first occurrences and
caps at twelve.  Category selection accumulates fixed weights for the
seven regex rules (alternations of literals, tested case
insensitively, with the two or more exclamation marks alternative of
the warm rule written as the literal double exclamation mark) and
picks the first entry of the table sorted by score with the stable
JavaScript sort; the fallback to the custom category fires only on a
falsy sort result, that is on an empty first component. -/

/-- JS word character class. -/
def isWordChar (c : Char) : Bool :=
  (97 ≤ c.toNat && c.toNat ≤ 122) || (65 ≤ c.toNat && c.toNat ≤ 90) ||
  (48 ≤ c.toNat && c.toNat ≤ 57) || c = '_'

def commonWords : List (List Char) :=
  ["the", "and", "or", "but", "in", "on", "at", "to", "for", "of", "with", "by",
   "a", "an", "is", "are", "was", "were", "be", "been", "being", "have", "has",
   "had", "do", "does", "did", "will", "would", "could", "should", "may",
   "might", "must", "can", "this", "that", "these", "those", "i", "you", "he",
   "she", "it", "we", "they", "me", "him", "her", "us", "them", "your", "our",
   "their"].map String.data

def dedupeAux (seen : List (List Char)) : List (List Char) → List (List Char)
  | [] => []
  | w :: t => if seen.contains w then dedupeAux seen t
              else w :: dedupeAux (w :: seen) t

def significantWords (content : String) : List String :=
  let words := runsOf isWordChar content.data
  let sig := (words.filter
    (fun w => 3 < w.length && !(commonWords.contains (lowerL w)))).map lowerL
  ((dedupeAux [] sig).take 12).map (fun w => String.mk w)

def patMatch (lits : List String) (content : List Char) : Bool :=
  lits.any (fun lit => isSub lit.data (lowerL content))

def onboardingLits : List String :=
  ["welcome", "hello", "thank you for choosing", "excited to work", "get started", "onboard"]
def customOfferLits : List String :=
  ["proposal", "custom offer", "price", "investment", "budget", "quote", "estimate"]
def revisionLits : List String :=
  ["revision", "feedback", "changes", "modify", "update", "adjust"]
def deliveryLits : List String :=
  ["delivery", "completed", "final", "finished", "ready", "done"]
def followUpLits : List String :=
  ["follow up", "check in", "progress", "status", "update"]
def upsellingLits : List String :=
  ["additional", "upgrade", "premium", "extra", "more", "enhance"]
def requirementsLits : List String :=
  ["requirements", "clarify", "understand", "details", "specific", "information"]

def categoryScores (content : List Char) : List (String × Nat) :=
  [("client_onboarding", if patMatch onboardingLits content then 3 else 0),
   ("custom_offer", if patMatch customOfferLits content then 3 else 0),
   ("revision_handling", if patMatch revisionLits content then 3 else 0),
   ("delivery", if patMatch deliveryLits content then 3 else 0),
   ("follow_up", if patMatch followUpLits content then 2 else 0),
   ("upselling", if patMatch upsellingLits content then 2 else 0),
   ("requirements_gathering", if patMatch requirementsLits content then 2 else 0)]

def jsInsertDesc (x : String × Nat) : List (String × Nat) → List (String × Nat)
  | [] => [x]
  | y :: ys => if y.2 ≤ x.2 then x :: y :: ys else y :: jsInsertDesc x ys

def jsSortDesc : List (String × Nat) → List (String × Nat)
  | [] => []
  | x :: xs => jsInsertDesc x (jsSortDesc xs)

def pickTop : List (String × Nat) → String
  | [] => "custom"
  | p :: _ => if p.1 = "" then "custom" else p.1

def detectCategory (content : List Char) : String :=
  pickTop (jsSortDesc (categoryScores content))

def warmLits : List String :=
  ["excited", "amazing", "wonderful", "fantastic", "love", "passion", "!!"]
def consultativeLits : List String :=
  ["strategic", "analysis", "recommend", "suggest", "best practice", "optimize"]
def efficientLits : List String :=
  ["quickly", "efficient", "fast", "immediate", "asap", "urgent"]
def formalLits : List String :=
  ["sincerely", "respectfully", "formal", "official", "regards"]
def collaborativeLits : List String :=
  ["together", "collaborate", "partnership", "team", "work with"]

def detectTone (content : List Char) : String :=
  if patMatch warmLits content then "warm"
  else if patMatch consultativeLits content then "consultative"
  else if patMatch efficientLits content then "efficient"
  else if patMatch formalLits content then "formal"
  else if patMatch collaborativeLits content then "collaborative"
  else "professional"

def detectComplexity (content : List Char) : String :=
  if patMatch ["complex", "advanced", "enterprise", "large scale", "sophisticated"] content
  then "complex"
  else if patMatch ["simple", "basic", "quick", "small", "minor"] content then "simple"
  else "standard"

def detectClientType (content : List Char) : String :=
  if patMatch ["startup", "new business", "entrepreneur"] content then "startup"
  else if patMatch ["enterprise", "corporation", "large company"] content then "enterprise"
  else if patMatch ["individual", "personal", "freelancer"] content then "individual"
  else if patMatch ["agency", "marketing", "design"] content then "agency"
  else "business"

structure AnalysisOut where
  keywords : List String
  category : String
  tone : String
  complexity : String
  clientType : String
deriving DecidableEq

def analyzeTemplateContent (content : String) : AnalysisOut :=
  ⟨significantWords content, detectCategory content.data, detectTone content.data,
   detectComplexity content.data, detectClientType content.data⟩

/-- Modelled from the claim wording: the leftmost pair with the
highest score, none for the empty table. -/
def leftmostMax : List (String × Nat) → Option (String × Nat)
  | [] => none
  | p :: t =>
    match leftmostMax t with
    | none => some p
    | some q => some (if p.2 < q.2 then q else p)

/-- Category selection as worded by the claim: the category of highest
accumulated score, ties resolved in favour of the earlier entry. -/
def specCategoryChoice (l : List (String × Nat)) : String :=
  match leftmostMax l with
  | none => "custom"
  | some p => if p.1 = "" then "custom" else p.1

theorem jsInsertDesc_head (x : String × Nat) (l : List (String × Nat)) :
    (jsInsertDesc x l).head? = some (match l.head? with
      | none => x
      | some y => if y.2 ≤ x.2 then x else y) := by
  cases l with
  | nil => rfl
  | cons y ys =>
    by_cases h : y.2 ≤ x.2
    · simp [jsInsertDesc, h]
    · simp [jsInsertDesc, h]

theorem jsSortDesc_head (l : List (String × Nat)) :
    (jsSortDesc l).head? = leftmostMax l := by
  induction l with
  | nil => rfl
  | cons x xs ih =>
    simp only [jsSortDesc, leftmostMax, jsInsertDesc_head, ih]
    rcases leftmostMax xs with _ | q
    · rfl
    · simp only [Option.some.injEq]
      rcases Nat.lt_or_ge x.2 q.2 with h | h
      · rw [if_neg (by omega), if_pos h]
      · rw [if_pos (by omega), if_neg (by omega)]

theorem pickTop_head (l : List (String × Nat)) :
    pickTop l = (match l.head? with
      | none => "custom"
      | some p => if p.1 = "" then "custom" else p.1) := by
  cases l <;> rfl

/-- C9: the analyzer category is the entry of highest accumulated
weighted score with ties resolved in declaration order, and a text
matching exactly the onboarding and custom offer patterns resolves to
client_onboarding. -/
theorem c9_category_argmax :
    (∀ content : String,
      detectCategory content.data = specCategoryChoice (categoryScores content.data)) ∧
    (∀ content : String,
      patMatch onboardingLits content.data = true →
      patMatch customOfferLits content.data = true →
      patMatch revisionLits content.data = false →
      patMatch deliveryLits content.data = false →
      patMatch followUpLits content.data = false →
      patMatch upsellingLits content.data = false →
      patMatch requirementsLits content.data = false →
      detectCategory content.data = "client_onboarding") := by
  constructor
  · intro content
    rw [detectCategory, pickTop_head, jsSortDesc_head, specCategoryChoice]
  · intro content h1 h2 h3 h4 h5 h6 h7
    rw [detectCategory, pickTop_head, jsSortDesc_head]
    simp [categoryScores, leftmostMax, h1, h2, h3, h4, h5, h6, h7]

/-- Witness instantiating the tie resolution part on the text welcome
proposal. -/
theorem c9_category_argmax_witness :
    detectCategory "welcome proposal".data = "client_onboarding" :=
  c9_category_argmax.2 "welcome proposal" (by decide) (by decide) (by decide) (by decide)
    (by decide) (by decide) (by decide)

/-- C3 evaluation at the failing input: on the empty string every rule
scores zero, the stable sort keeps declaration order, and the analyzer
returns the first declared category client_onboarding, not the custom
default claimed by the specification; the other four components match
the claim.  The fallback to custom in the source is unreachable
because the sorted table is never empty and its keys are never the
empty string. -/
theorem c3_empty_input_category_bug :
    analyzeTemplateContent "" =
      ⟨[], "client_onboarding", "professional", "standard", "business"⟩ := by decide

/-! ## Bulk import: parseCSVContent and the upload session summary

Embedding of the CSV parsing and of the count bookkeeping of
handleFileUpload from TemplateUpload.tsx.  A data row is split by a
single pass character loop that toggles an in-quotes flag, splits on
top level commas and trims each cell; a row contributes a template only
when both the title and the content cells are non empty, otherwise the
row is dropped during parsing.  The session summary counts the parsed
templates as the total, the database inserts that succeeded as
successful, the difference as failed, and logs one message per failed
insert; the insert outcome is an oracle parameter here. -/

structure PartialTemplate where
  title : Option String := none
  content : Option String := none
  category : Option String := none
  tone_style : Option String := none
  industry_tags : Option (List String) := none
  client_type : Option String := none
  project_complexity : Option String := none
  matching_keywords : Option (List String) := none
deriving DecidableEq

def csvCells (inQ : Bool) (cur : List Char) : List Char → List (List Char)
  | [] => [jsTrim cur.reverse]
  | c :: t =>
    if c = '"' then csvCells (!inQ) cur t
    else if c = ',' && !inQ then jsTrim cur.reverse :: csvCells inQ [] t
    else csvCells inQ (c :: cur) t

def splitTags (value : List Char) : List String :=
  if value = [] then []
  else (value.splitOn ',').map (fun tag => String.mk (jsTrim tag))

def applyHeader (t : PartialTemplate) (header value : List Char) : PartialTemplate :=
  if header = "title".data then { t with title := some (String.mk value) }
  else if header = "content".data then { t with content := some (String.mk value) }
  else if header = "category".data then
    { t with category := some (if value = [] then "custom" else String.mk value) }
  else if header = "tone_style".data then
    { t with tone_style := some (if value = [] then "professional" else String.mk value) }
  else if header = "industry_tags".data then { t with industry_tags := some (splitTags value) }
  else if header = "client_type".data then { t with client_type := some (String.mk value) }
  else if header = "project_complexity".data then
    { t with project_complexity := some (if value = [] then "standard" else String.mk value) }
  else if header = "matching_keywords".data then
    { t with matching_keywords := some (splitTags value) }
  else t

def buildT (t : PartialTemplate) : List (List Char) → List (List Char) → PartialTemplate
  | [], _ => t
  | h :: hs, vs =>
    buildT (applyHeader t h ((vs.headD []).filter (fun c => c ≠ '"'))) hs vs.tail

def rowTemplate (headers : List (List Char)) (row : List Char) : PartialTemplate :=
  buildT {} headers (csvCells false [] row)

def parseCSVContent (csv : String) : Except String (List PartialTemplate) :=
  let lines := (csv.data.splitOn '\n').filter (fun l => jsTrim l ≠ [])
  if lines.length < 2 then
    .error "CSV must have at least a header and one data row"
  else
    let headers := ((lines.headD []).splitOn ',').map
      (fun h => lowerL (jsTrim (h.filter (fun c => c ≠ '"'))))
    .ok (((lines.drop 1).map (fun row => rowTemplate headers row)).filter
      (fun t => t.title.getD "" ≠ "" && t.content.getD "" ≠ ""))

structure UploadSummary where
  total : Nat
  successful : Nat
  failed : Nat
  errors : List String
deriving DecidableEq

def processUpload (templates : List PartialTemplate)
    (insertErr : PartialTemplate → Option String) : UploadSummary :=
  let successful := templates.countP (fun t => (insertErr t).isNone)
  ⟨templates.length, successful, templates.length - successful,
   templates.filterMap (fun t => (insertErr t).map
     (fun e => "Template \"" ++ t.title.getD "" ++ "\": " ++ e))⟩

/-- C4 counterexample: a well formed row plus a row with an empty title
parse to a single template, so the session summary is total one,
successful one, failed zero with an empty error log, not the claimed
total two with one failure and an error entry. -/
theorem c4_import_counts_cex :
    (parseCSVContent "title,content\nGood,Body\n,NoTitle").toOption =
      some [{ title := some "Good", content := some "Body" }] ∧
    processUpload [{ title := some "Good", content := some "Body" }] (fun _ => none) =
      ⟨1, 1, 0, []⟩ := by decide

theorem length_filterMap_count {α β : Type} (l : List α) (f : α → Option β) :
    (l.filterMap f).length = l.countP (fun x => (f x).isSome) := by
  induction l with
  | nil => rfl
  | cons a t ih =>
    rw [List.filterMap_cons, List.countP_cons]
    cases h : f a <;> simp [h, ih]

/-- C4 amended: the summary total always equals the number of parsed
templates (invalid rows are dropped before counting), successful and
failed always sum to the total, and the error log has one entry per
failed insert; on the two row input of the claim the summary is total
one, successful one, failed zero, no errors. -/
theorem c4_import_counts_amended :
    (∀ (templates : List PartialTemplate) (ins : PartialTemplate → Option String),
      (processUpload templates ins).total = templates.length ∧
      (processUpload templates ins).successful + (processUpload templates ins).failed =
        templates.length ∧
      (processUpload templates ins).errors.length = (processUpload templates ins).failed) ∧
    (parseCSVContent "title,content\nGood,Body\n,NoTitle").toOption =
      some [{ title := some "Good", content := some "Body" }] ∧
    processUpload [{ title := some "Good", content := some "Body" }] (fun _ => none) =
      ⟨1, 1, 0, []⟩ := by
  refine ⟨?_, by decide, by decide⟩
  intro templates ins
  have hc : templates.countP (fun t => (ins t).isNone) ≤ templates.length :=
    List.countP_le_length _
  refine ⟨rfl, by simp only [processUpload]; omega, ?_⟩
  show (templates.filterMap _).length = _
  rw [length_filterMap_count]
  have h2 : templates.countP (fun t => ((ins t).map
      (fun e => "Template \"" ++ t.title.getD "" ++ "\": " ++ e)).isSome) =
      templates.countP (fun t => !(ins t).isNone) := by
    apply List.countP_congr
    intro x _
    cases h : ins x <;> simp [h]
  rw [h2]
  have h3 := List.length_eq_countP_add_countP (fun t => (ins t).isNone) templates
  have h4 : templates.countP (fun a => decide ¬((fun t => (ins t).isNone) a = true)) =
      templates.countP (fun t => !(ins t).isNone) := by
    apply List.countP_congr
    intro x _
    cases h : ins x <;> simp [h]
  rw [h4] at h3
  simp only [processUpload]
  omega

/-! ## Content formatter: formatTemplateContent

Embedding of formatTemplateContent from TemplateUpload.tsx, one
definition per replacement step, in source order: trim; carriage
return line feed pairs to line feeds; stray carriage returns to line
feeds; runs of three or more line feeds to two; runs of spaces and
tabs to one space; upper casing a lower case letter at the start or
after sentence punctuation plus whitespace (a left to right scan, as
the global regex performs); removal of whitespace before punctuation;
insertion of a space between sentence punctuation and an upper case
letter; and greeting normalization of a leading hi or hello.  Every
definition is structurally recursive, so the pipeline evaluates inside
the kernel. -/

def crlfCollapse : List Char → List Char
  | [] => []
  | [c] => [c]
  | c :: d :: t =>
    if c = '\r' ∧ d = '\n' then '\n' :: crlfCollapse t
    else c :: crlfCollapse (d :: t)

def crMap (l : List Char) : List Char := l.map (fun c => if c = '\r' then '\n' else c)

def nlSqueeze : List Char → List Char
  | [] => []
  | a :: t => if a = '\n' && t.take 2 = ['\n', '\n'] then nlSqueeze t else a :: nlSqueeze t

def spTab (c : Char) : Bool := c = ' ' || c = '\t'

def spSqueeze : List Char → List Char
  | [] => []
  | [c] => if spTab c then [' '] else [c]
  | c :: d :: t =>
    if spTab c then
      (if spTab d then spSqueeze (d :: t) else ' ' :: spSqueeze (d :: t))
    else c :: spSqueeze (d :: t)

inductive CapSt
  | start
  | punct
  | punctWs
  | other
deriving DecidableEq

def sentPunct (c : Char) : Bool := c = '.' || c = '!' || c = '?'

def armed : CapSt → Bool
  | .start => true
  | .punctWs => true
  | _ => false

def capNext (s : CapSt) (c : Char) : CapSt :=
  if sentPunct c then .punct
  else if jsWs c then
    match s with
    | .punct => .punctWs
    | .punctWs => .punctWs
    | _ => .other
  else .other

def capRun (s : CapSt) : List Char → List Char
  | [] => []
  | c :: t =>
    if armed s && isLowerA c then Char.toUpper c :: capRun (capNext s c) t
    else c :: capRun (capNext s c) t

def capitalize (l : List Char) : List Char := capRun .start l

def punct6 (c : Char) : Bool := c = '.' || c = ',' || c = '!' || c = '?'

def wsPunctRm (pend : List Char) : List Char → List Char
  | [] => pend
  | c :: t =>
    if jsWs c then wsPunctRm (pend ++ [c]) t
    else if punct6 c then c :: wsPunctRm [] t
    else pend ++ c :: wsPunctRm [] t

def sentSpace : List Char → List Char
  | a :: b :: t =>
    if sentPunct a && isUpperA b then a :: ' ' :: b :: sentSpace t
    else a :: sentSpace (b :: t)
  | l => l

def startsWithCI (pre l : List Char) : Bool := pre.isPrefixOf (lowerL l)

def greet (l : List Char) : List Char :=
  if startsWithCI "hi ".data l || startsWithCI "hello ".data l then
    let n : Nat := if startsWithCI "hi ".data l then 2 else 5
    match l.take n with
    | [] => l
    | c :: cs =>
      Char.toUpper c :: lowerL cs ++ lowerL ((l.drop n).takeWhile jsWs) ++
        (l.drop n).dropWhile jsWs
  else l

def formatPipeline (l : List Char) : List Char :=
  greet (sentSpace (wsPunctRm [] (capitalize (spSqueeze (nlSqueeze (crMap (crlfCollapse (jsTrim l))))))))

def formatTemplateContent (s : String) : String := String.mk (formatPipeline s.data)

end ChatBuddy
namespace ChatBuddy

/-! ### Character class lemmas -/

theorem toUpper_toNat (c : Char) :
    (Char.toUpper c).toNat =
      if 97 ≤ c.toNat ∧ c.toNat ≤ 122 then c.toNat - 32 else c.toNat := by
  simp only [Char.toUpper]
  by_cases h : 97 ≤ c.toNat ∧ c.toNat ≤ 122
  · rw [if_pos (by omega : c.toNat ≥ 97 ∧ c.toNat ≤ 122), if_pos h]
    have hv : (c.toNat - 32).isValidChar := Or.inl (by omega)
    simp only [Char.toNat] at hv ⊢
    simp [Char.ofNat, hv, Char.ofNatAux]
    rfl
  · rw [if_neg (by omega : ¬(c.toNat ≥ 97 ∧ c.toNat ≤ 122)), if_neg h]

theorem jsWs_iff (c : Char) : jsWs c = true ↔
    (c.toNat = 32 ∨ c.toNat = 9 ∨ c.toNat = 10 ∨ c.toNat = 13 ∨ c.toNat = 11 ∨
     c.toNat = 12 ∨ c.toNat = 160 ∨ c.toNat = 5760 ∨
     (8192 ≤ c.toNat ∧ c.toNat ≤ 8202) ∨ c.toNat = 8232 ∨ c.toNat = 8233 ∨
     c.toNat = 8239 ∨ c.toNat = 8287 ∨ c.toNat = 12288 ∨ c.toNat = 65279) := by
  simp only [jsWs, Bool.or_eq_true, decide_eq_true_eq, Bool.and_eq_true]
  tauto

theorem isLowerA_iff (c : Char) : isLowerA c = true ↔ 97 ≤ c.toNat ∧ c.toNat ≤ 122 := by
  simp [isLowerA]

theorem isUpperA_iff (c : Char) : isUpperA c = true ↔ 65 ≤ c.toNat ∧ c.toNat ≤ 90 := by
  simp [isUpperA]

theorem eq_char_iff_toNat (c d : Char) : c = d ↔ c.toNat = d.toNat :=
  ⟨fun h => h ▸ rfl, char_toNat_injective⟩

theorem sentPunct_iff (c : Char) : sentPunct c = true ↔
    (c.toNat = 46 ∨ c.toNat = 33 ∨ c.toNat = 63) := by
  have h2 : sentPunct c = true ↔ (c = '.' ∨ c = '!' ∨ c = '?') := by
    simp [sentPunct, or_assoc]
  rw [h2, eq_char_iff_toNat, eq_char_iff_toNat, eq_char_iff_toNat]
  rfl

theorem punct6_iff (c : Char) : punct6 c = true ↔
    (c.toNat = 46 ∨ c.toNat = 44 ∨ c.toNat = 33 ∨ c.toNat = 63) := by
  have h2 : punct6 c = true ↔ (c = '.' ∨ c = ',' ∨ c = '!' ∨ c = '?') := by
    simp [punct6, or_assoc]
  rw [h2, eq_char_iff_toNat, eq_char_iff_toNat, eq_char_iff_toNat, eq_char_iff_toNat]
  rfl

theorem spTab_iff (c : Char) : spTab c = true ↔ (c.toNat = 32 ∨ c.toNat = 9) := by
  have h2 : spTab c = true ↔ (c = ' ' ∨ c = '\t') := by simp [spTab]
  rw [h2, eq_char_iff_toNat, eq_char_iff_toNat]
  rfl

/-- The class record preserved by the ASCII case maps. -/
structure ClassEq (c d : Char) : Prop where
  ws : jsWs c = jsWs d
  p6 : punct6 c = punct6 d
  sp : sentPunct c = sentPunct d
  st : spTab c = spTab d
  nl : c = '\n' ↔ d = '\n'
  cr : c = '\r' ↔ d = '\r'
  tb : c = '\t' ↔ d = '\t'

theorem ClassEq.refl (c : Char) : ClassEq c c :=
  ⟨rfl, rfl, rfl, rfl, Iff.rfl, Iff.rfl, Iff.rfl⟩

theorem classEq_of_toNat {c d : Char} (h : c.toNat = d.toNat) : ClassEq c d := by
  have := char_toNat_injective h
  subst this
  exact ClassEq.refl c

theorem bool_eq_of_iff {p q : Bool} (h : p = true ↔ q = true) : p = q := by
  cases p <;> cases q <;> simp_all

theorem classEq_letter {c d : Char}
    (hc : 65 ≤ c.toNat ∧ c.toNat ≤ 90 ∨ 97 ≤ c.toNat ∧ c.toNat ≤ 122)
    (hd : 65 ≤ d.toNat ∧ d.toNat ≤ 90 ∨ 97 ≤ d.toNat ∧ d.toNat ≤ 122) : ClassEq c d := by
  have h10 : ('\n').toNat = 10 := rfl
  have h13 : ('\r').toNat = 13 := rfl
  have h9 : ('\t').toNat = 9 := rfl
  refine ⟨?_, ?_, ?_, ?_, ?_, ?_, ?_⟩
  · exact bool_eq_of_iff (by rw [jsWs_iff, jsWs_iff]; omega)
  · exact bool_eq_of_iff (by rw [punct6_iff, punct6_iff]; omega)
  · exact bool_eq_of_iff (by rw [sentPunct_iff, sentPunct_iff]; omega)
  · exact bool_eq_of_iff (by rw [spTab_iff, spTab_iff]; omega)
  · rw [eq_char_iff_toNat, eq_char_iff_toNat, h10]
    omega
  · rw [eq_char_iff_toNat, eq_char_iff_toNat, h13]
    omega
  · rw [eq_char_iff_toNat, eq_char_iff_toNat, h9]
    omega

theorem classEq_toLower (c : Char) : ClassEq c (Char.toLower c) := by
  by_cases h : 65 ≤ c.toNat ∧ c.toNat ≤ 90
  · have hl := toLower_toNat c
    rw [if_pos h] at hl
    exact classEq_letter (Or.inl h) (Or.inr (by omega))
  · have hl := toLower_toNat c
    rw [if_neg h] at hl
    exact classEq_of_toNat hl.symm

theorem classEq_toUpper (c : Char) : ClassEq c (Char.toUpper c) := by
  by_cases h : 97 ≤ c.toNat ∧ c.toNat ≤ 122
  · have hl := toUpper_toNat c
    rw [if_pos h] at hl
    exact classEq_letter (Or.inr h) (Or.inl (by omega))
  · have hl := toUpper_toNat c
    rw [if_neg h] at hl
    exact classEq_of_toNat hl.symm

theorem isLowerA_toUpper (c : Char) : isLowerA c = true → isLowerA (Char.toUpper c) = false := by
  intro h
  rw [isLowerA_iff] at h
  have hu := toUpper_toNat c
  rw [if_pos h] at hu
  rw [← Bool.not_eq_true, isLowerA_iff]
  omega

end ChatBuddy

namespace ChatBuddy

/-! ### Normal form predicates of the formatter -/

def headOk : List Char → Bool
  | [] => true
  | c :: _ => !jsWs c

def tailOk (l : List Char) : Bool := headOk l.reverse

def noNNN : List Char → Bool
  | a :: b :: c :: t => !(a = '\n' && b = '\n' && c = '\n') && noNNN (b :: c :: t)
  | _ => true

/-- No two adjacent characters form a forbidden pair. -/
def pairOk (bad : Char → Char → Bool) : List Char → Bool
  | a :: b :: t => !bad a b && pairOk bad (b :: t)
  | _ => true

def noSpSp : List Char → Bool := pairOk (fun a b => spTab a && spTab b)

def noWsP : List Char → Bool := pairOk (fun a b => jsWs a && punct6 b)

def noPU : List Char → Bool := pairOk (fun a b => sentPunct a && isUpperA b)

def capOK (s : CapSt) : List Char → Bool
  | [] => true
  | c :: t => !(armed s && isLowerA c) && capOK (capNext s c) t

/-! ### Small structure lemmas for the predicates -/

theorem tailOk_cons (c : Char) (t : List Char) :
    tailOk (c :: t) = if t = [] then !jsWs c else tailOk t := by
  by_cases h : t = []
  · subst h
    simp [tailOk, headOk]
  · rw [if_neg h]
    unfold tailOk
    rw [List.reverse_cons]
    obtain ⟨x, u, hxu⟩ : ∃ x u, t.reverse = x :: u := by
      cases ht : t.reverse with
      | nil => exact absurd (List.reverse_eq_nil_iff.mp ht) h
      | cons x u => exact ⟨x, u, rfl⟩
    rw [hxu]
    rfl

theorem noNNN_cons (a : Char) (t : List Char) :
    noNNN (a :: t) = (!(a = '\n' && t.take 2 = ['\n', '\n']) && noNNN t) := by
  match t with
  | [] => simp [noNNN]
  | [b] => simp [noNNN]
  | b :: c :: u => simp only [noNNN, List.take, decide_eq_true_eq]
                   cases hb : (b = '\n' : Bool) <;> cases hc : (c = '\n' : Bool) <;>
                     simp_all

theorem noNNN_tail {a : Char} {t : List Char} (h : noNNN (a :: t) = true) : noNNN t = true := by
  rw [noNNN_cons, Bool.and_eq_true] at h
  exact h.2

end ChatBuddy

namespace ChatBuddy

theorem pairOk_cons (bad : Char → Char → Bool) (a : Char) (t : List Char) :
    pairOk bad (a :: t) =
      ((match t.head? with
        | none => true
        | some b => !bad a b) && pairOk bad t) := by
  cases t <;> simp [pairOk]

theorem pairOk_tail {bad : Char → Char → Bool} {a : Char} {t : List Char}
    (h : pairOk bad (a :: t) = true) : pairOk bad t = true := by
  rw [pairOk_cons, Bool.and_eq_true] at h
  exact h.2

theorem pairOk_suffix {bad : Char → Char → Bool} (u : List Char) {v : List Char}
    (h : pairOk bad (u ++ v) = true) : pairOk bad v = true := by
  induction u with
  | nil => exact h
  | cons a u ih => exact ih (pairOk_tail h)

theorem pairOk_prefix {bad : Char → Char → Bool} {u : List Char} (v : List Char)
    (h : pairOk bad (u ++ v) = true) : pairOk bad u = true := by
  induction u with
  | nil => rfl
  | cons a u ih =>
    rw [pairOk_cons, Bool.and_eq_true]
    rw [List.cons_append, pairOk_cons, Bool.and_eq_true] at h
    refine ⟨?_, ih h.2⟩
    rcases hu : u with _ | ⟨b, u2⟩
    · simp
    · subst hu
      simpa using h.1

theorem pairOk_append_mid {bad : Char → Char → Bool} {u v : List Char} {c : Char}
    (hu : pairOk bad u = true) (hv : pairOk bad v = true)
    (hc1 : ∀ x, bad x c = false) (hc2 : ∀ y, bad c y = false) :
    pairOk bad (u ++ c :: v) = true := by
  induction u with
  | nil =>
    rw [List.nil_append, pairOk_cons, Bool.and_eq_true]
    refine ⟨?_, hv⟩
    cases v <;> simp [hc2]
  | cons a u ih =>
    rw [List.cons_append, pairOk_cons, Bool.and_eq_true]
    refine ⟨?_, ih (pairOk_tail hu)⟩
    rcases hu2 : u with _ | ⟨b, u2⟩
    · simp [hc1]
    · subst hu2
      rw [pairOk_cons, Bool.and_eq_true] at hu
      simpa using hu.1

theorem pairOk_transfer {bad : Char → Char → Bool} {R : Char → Char → Prop}
    (hbad : ∀ c d c' d', R c c' → R d d' → bad c d = bad c' d')
    {l l' : List Char} (h : List.Forall₂ R l l') : pairOk bad l = pairOk bad l' := by
  induction h with
  | nil => rfl
  | @cons a a' t t' hr hall ih =>
    cases hall with
    | nil => rfl
    | @cons b b' u u' hr2 hall2 =>
      show pairOk bad (a :: b :: u) = pairOk bad (a' :: b' :: u')
      show (!bad a b && pairOk bad (b :: u)) = (!bad a' b' && pairOk bad (b' :: u'))
      rw [hbad a b a' b' hr hr2, ih]

end ChatBuddy

namespace ChatBuddy

/-! ### Transfer of the class window predicates along case maps -/

theorem forall₂_classEq_refl (l : List Char) : List.Forall₂ ClassEq l l := by
  induction l with
  | nil => exact List.Forall₂.nil
  | cons a t ih => exact List.Forall₂.cons (ClassEq.refl a) ih

theorem forall₂_classEq_map_toLower (l : List Char) :
    List.Forall₂ ClassEq l (l.map Char.toLower) := by
  induction l with
  | nil => exact List.Forall₂.nil
  | cons a t ih => exact List.Forall₂.cons (classEq_toLower a) ih

theorem forall₂_classEq_capRun (s : CapSt) (l : List Char) :
    List.Forall₂ ClassEq l (capRun s l) := by
  induction l generalizing s with
  | nil => exact List.Forall₂.nil
  | cons c t ih =>
    show List.Forall₂ ClassEq (c :: t) (capRun s (c :: t))
    rw [capRun]
    split
    · exact List.Forall₂.cons (classEq_toUpper c) (ih (capNext s c))
    · exact List.Forall₂.cons (ClassEq.refl c) (ih (capNext s c))

theorem noSpSp_transfer {l l' : List Char} (h : List.Forall₂ ClassEq l l') :
    noSpSp l = noSpSp l' :=
  pairOk_transfer (fun c d c' d' h1 h2 => by rw [show spTab c = spTab c' from h1.st,
    show spTab d = spTab d' from h2.st]) h

theorem noWsP_transfer {l l' : List Char} (h : List.Forall₂ ClassEq l l') :
    noWsP l = noWsP l' :=
  pairOk_transfer (fun c d c' d' h1 h2 => by rw [show jsWs c = jsWs c' from h1.ws,
    show punct6 d = punct6 d' from h2.p6]) h

theorem noNNN_transfer {l l' : List Char} (h : List.Forall₂ ClassEq l l') :
    noNNN l = noNNN l' := by
  induction h with
  | nil => rfl
  | @cons a a' t t' hr hall ih =>
    cases hall with
    | nil => rfl
    | @cons b b' u u' hr2 hall2 =>
      cases hall2 with
      | nil => rfl
      | @cons c c' v v' hr3 hall3 =>
        show noNNN (a :: b :: c :: v) = noNNN (a' :: b' :: c' :: v')
        show (!(a = '\n' && b = '\n' && c = '\n') && noNNN (b :: c :: v)) =
          (!(a' = '\n' && b' = '\n' && c' = '\n') && noNNN (b' :: c' :: v'))
        have e1 : (decide (a = '\n')) = (decide (a' = '\n')) := by
          simp only [decide_eq_decide]
          exact hr.nl
        have e2 : (decide (b = '\n')) = (decide (b' = '\n')) := by
          simp only [decide_eq_decide]
          exact hr2.nl
        have e3 : (decide (c = '\n')) = (decide (c' = '\n')) := by
          simp only [decide_eq_decide]
          exact hr3.nl
        rw [e1, e2, e3, ih]

theorem headOk_transfer {l l' : List Char} (h : List.Forall₂ ClassEq l l') :
    headOk l = headOk l' := by
  cases h with
  | nil => rfl
  | cons hr _ =>
    show (!jsWs _) = (!jsWs _)
    rw [hr.ws]

theorem tailOk_transfer {l l' : List Char} (h : List.Forall₂ ClassEq l l') :
    tailOk l = tailOk l' :=
  headOk_transfer (List.forall₂_reverse_iff.mpr h)

theorem noTab_transfer {l l' : List Char} (h : List.Forall₂ ClassEq l l') :
    '\t' ∉ l → '\t' ∉ l' := by
  induction h with
  | nil => exact fun h2 => h2
  | @cons a a' t t' hr hall ih =>
    intro hm hmem
    rcases List.mem_cons.mp hmem with h2 | h2
    · exact hm (List.mem_cons.mpr (Or.inl (hr.tb.mpr h2.symm).symm))
    · exact ih (fun h3 => hm (List.mem_cons.mpr (Or.inr h3))) h2

theorem noCR_transfer {l l' : List Char} (h : List.Forall₂ ClassEq l l') :
    '\r' ∉ l → '\r' ∉ l' := by
  induction h with
  | nil => exact fun h2 => h2
  | @cons a a' t t' hr hall ih =>
    intro hm hmem
    rcases List.mem_cons.mp hmem with h2 | h2
    · exact hm (List.mem_cons.mpr (Or.inl (hr.cr.mpr h2.symm).symm))
    · exact ih (fun h3 => hm (List.mem_cons.mpr (Or.inr h3))) h2

end ChatBuddy

namespace ChatBuddy

/-! ### Each step is the identity on its normal forms -/

theorem bool_neg_elim {b : Bool} (h : (!b) = true) : ¬(b = true) := by
  simp at h
  simp [h]

theorem dropWhile_eq_self_of_headOk {l : List Char} (h : headOk l = true) :
    l.dropWhile jsWs = l := by
  cases l with
  | nil => rfl
  | cons c t =>
    have hc : jsWs c = false := by simpa [headOk] using h
    simp [List.dropWhile_cons, hc]

theorem jsTrim_fix {l : List Char} (h1 : headOk l = true) (h2 : tailOk l = true) :
    jsTrim l = l := by
  unfold jsTrim
  rw [dropWhile_eq_self_of_headOk h1, dropWhile_eq_self_of_headOk h2,
    List.reverse_reverse]

theorem crlfCollapse_fix {l : List Char} (h : '\r' ∉ l) : crlfCollapse l = l := by
  induction l using crlfCollapse.induct with
  | case1 => rfl
  | case2 c => rfl
  | case3 c d t hcd ih =>
    exact absurd (List.mem_cons_self _ _) (by rw [hcd.1] at h; exact h)
  | case4 c d t hcd ih =>
    rw [crlfCollapse, if_neg hcd, ih (fun hm => h (List.mem_cons_of_mem _ hm))]

theorem crMap_fix {l : List Char} (h : '\r' ∉ l) : crMap l = l := by
  unfold crMap
  induction l with
  | nil => rfl
  | cons c t ih =>
    rw [List.map_cons, if_neg (fun (he : c = '\r') => h (he ▸ List.mem_cons_self _ _)),
      ih (fun hm => h (List.mem_cons_of_mem _ hm))]

theorem nlSqueeze_fix {l : List Char} (h : noNNN l = true) : nlSqueeze l = l := by
  induction l with
  | nil => rfl
  | cons a t ih =>
    rw [noNNN_cons, Bool.and_eq_true] at h
    rw [nlSqueeze, if_neg (bool_neg_elim h.1), ih h.2]

theorem spTab_eq_space {c : Char} (hc : spTab c = true) (ht : '\t' ∉ [c]) : c = ' ' := by
  rcases (by simpa [spTab] using hc : c = ' ' ∨ c = '\t') with h2 | h2
  · exact h2
  · exact absurd (h2 ▸ List.mem_cons_self _ _) ht

theorem spSqueeze_fix {l : List Char} (ht : '\t' ∉ l) (h : noSpSp l = true) :
    spSqueeze l = l := by
  induction l using spSqueeze.induct with
  | case1 => rfl
  | case2 c hc =>
    rw [spSqueeze, if_pos hc, spTab_eq_space hc ht]
  | case3 c hc => rw [spSqueeze, if_neg hc]
  | case4 c d t hc hd ih =>
    exfalso
    rw [noSpSp, pairOk_cons, Bool.and_eq_true] at h
    have h1 := h.1
    simp only [List.head?] at h1
    rw [hc, hd] at h1
    simp at h1
  | case5 c d t hc hd ih =>
    have ht2 : '\t' ∉ d :: t := fun hm => ht (List.mem_cons_of_mem _ hm)
    have hc2 : c = ' ' := spTab_eq_space hc
      (fun hm => ht (by rcases List.mem_singleton.mp hm with h2; rw [h2]; exact List.mem_cons_self _ _))
    rw [spSqueeze, if_pos hc, if_neg hd, ih ht2 (pairOk_tail h), hc2]
  | case6 c d t hc ih =>
    rw [spSqueeze, if_neg hc,
      ih (fun hm => ht (List.mem_cons_of_mem _ hm)) (pairOk_tail h)]

theorem capRun_fix {s : CapSt} {l : List Char} (h : capOK s l = true) :
    capRun s l = l := by
  induction l generalizing s with
  | nil => rfl
  | cons c t ih =>
    rw [capOK, Bool.and_eq_true] at h
    rw [capRun, if_neg (bool_neg_elim h.1), ih h.2]

theorem wsPunctRm_fix {l : List Char} (pend : List Char) (h : noWsP l = true)
    (hp : pend ≠ [] → ∀ c, l.head? = some c → punct6 c = false) :
    wsPunctRm pend l = pend ++ l := by
  induction l generalizing pend with
  | nil => simp [wsPunctRm]
  | cons c t ih =>
    have hcons := h
    rw [noWsP, pairOk_cons, Bool.and_eq_true] at hcons
    obtain ⟨hhead, htail⟩ := hcons
    rw [wsPunctRm]
    by_cases hws : jsWs c = true
    · rw [if_pos hws]
      have hnp : ∀ d, t.head? = some d → punct6 d = false := by
        intro d hd
        rw [hd] at hhead
        cases hq : punct6 d
        · rfl
        · exfalso
          simp [hq, hws] at hhead
      rw [ih (pend ++ [c]) htail (fun _ => hnp)]
      simp
    · rw [if_neg hws]
      by_cases hpc : punct6 c = true
      · rw [if_pos hpc]
        have hpe : pend = [] := by
          by_contra hne
          have h2 := hp hne c rfl
          rw [h2] at hpc
          exact absurd hpc (by simp)
        subst hpe
        rw [ih [] htail (fun hne => absurd rfl hne)]
        rfl
      · rw [if_neg hpc]
        rw [ih [] htail (fun hne => absurd rfl hne)]
        rfl

theorem sentSpace_fix {l : List Char} (h : noPU l = true) : sentSpace l = l := by
  induction l using sentSpace.induct with
  | case1 a b t hcond ih =>
    exfalso
    rw [noPU, pairOk_cons, Bool.and_eq_true] at h
    have h1 := h.1
    simp only [List.head?] at h1
    rw [hcond] at h1
    simp at h1
  | case2 a b t hcond ih =>
    rw [sentSpace, if_neg hcond, ih (pairOk_tail h)]
  | case3 l hshape =>
    rcases l with _ | ⟨a, t⟩
    · rfl
    · rcases t with _ | ⟨b, u⟩
      · rfl
      · exact absurd rfl (fun h2 => hshape a b u h2)

end ChatBuddy

namespace ChatBuddy

/-! ### Class facts and pair introduction helpers -/

theorem jsWs_of_spTab {c : Char} (h : spTab c = true) : jsWs c = true := by
  rw [spTab_iff] at h
  rw [jsWs_iff]
  omega

theorem punct6_not_ws {c : Char} (h : punct6 c = true) : jsWs c = false := by
  rw [punct6_iff] at h
  cases hw : jsWs c
  · rfl
  · rw [jsWs_iff] at hw
    omega

theorem ws_not_punct6 {c : Char} (h : jsWs c = true) : punct6 c = false := by
  cases hp : punct6 c
  · rfl
  · rw [punct6_iff] at hp
    rw [jsWs_iff] at h
    omega

theorem ws_not_sentPunct {c : Char} (h : jsWs c = true) : sentPunct c = false := by
  cases hp : sentPunct c
  · rfl
  · rw [sentPunct_iff] at hp
    rw [jsWs_iff] at h
    omega

theorem upper_not_sentPunct {c : Char} (h : isUpperA c = true) : sentPunct c = false := by
  cases hp : sentPunct c
  · rfl
  · rw [sentPunct_iff] at hp
    rw [isUpperA_iff] at h
    omega

theorem upper_not_ws {c : Char} (h : isUpperA c = true) : jsWs c = false := by
  cases hp : jsWs c
  · rfl
  · rw [jsWs_iff] at hp
    rw [isUpperA_iff] at h
    omega

theorem upper_not_spTab {c : Char} (h : isUpperA c = true) : spTab c = false := by
  cases hp : spTab c
  · rfl
  · rw [spTab_iff] at hp
    rw [isUpperA_iff] at h
    omega

theorem sentPunct_not_ws {c : Char} (h : sentPunct c = true) : jsWs c = false := by
  cases hp : jsWs c
  · rfl
  · rw [jsWs_iff] at hp
    rw [sentPunct_iff] at h
    omega

theorem not_ws_not_spTab {c : Char} (h : jsWs c = false) : spTab c = false := by
  cases hp : spTab c
  · rfl
  · rw [← h, jsWs_of_spTab hp]

theorem pairOk_cons_intro {bad : Char → Char → Bool} {a : Char} {t : List Char}
    (h1 : ∀ b, t.head? = some b → bad a b = false) (h2 : pairOk bad t = true) :
    pairOk bad (a :: t) = true := by
  rw [pairOk_cons, Bool.and_eq_true]
  refine ⟨?_, h2⟩
  cases ht : t with
  | nil => rfl
  | cons b u =>
    have := h1 b (by rw [ht]; rfl)
    simp [this]

/-! ### Step outputs satisfy their own normal form conditions -/

theorem headOk_dropWhile (l : List Char) : headOk (l.dropWhile jsWs) = true := by
  induction l with
  | nil => rfl
  | cons c t ih =>
    rw [List.dropWhile_cons]
    split
    · exact ih
    · rename_i hws
      simpa [headOk] using hws

theorem headOk_append_left {u v : List Char} (hu : u ≠ []) :
    headOk (u ++ v) = headOk u := by
  cases u with
  | nil => exact absurd rfl hu
  | cons c t => rfl

theorem jsTrim_headOk (l : List Char) : headOk (jsTrim l) = true := by
  unfold jsTrim
  set X := l.dropWhile jsWs with hX
  set Y := X.reverse.dropWhile jsWs with hY
  have hsplit : X.reverse.takeWhile jsWs ++ Y = X.reverse :=
    List.takeWhile_append_dropWhile _ _
  have hX2 : X = Y.reverse ++ (X.reverse.takeWhile jsWs).reverse := by
    have := congrArg List.reverse hsplit
    rw [List.reverse_append, List.reverse_reverse] at this
    exact this.symm
  cases hYr : Y.reverse with
  | nil => rfl
  | cons c u =>
    have hne : Y.reverse ≠ [] := by rw [hYr]; simp
    have h1 : headOk X = true := headOk_dropWhile l
    rw [hX2, headOk_append_left hne] at h1
    rw [hYr] at h1
    exact h1

theorem jsTrim_tailOk (l : List Char) : tailOk (jsTrim l) = true := by
  unfold tailOk jsTrim
  rw [List.reverse_reverse]
  exact headOk_dropWhile _

theorem crMap_noCR (l : List Char) : '\r' ∉ crMap l := by
  intro hm
  unfold crMap at hm
  rw [List.mem_map] at hm
  obtain ⟨c, _, hc⟩ := hm
  by_cases h : c = '\r'
  · rw [if_pos h] at hc
    exact absurd hc (by decide)
  · rw [if_neg h] at hc
    exact h hc

theorem nlSqueeze_head (l : List Char) : (nlSqueeze l).head? = l.head? := by
  induction l with
  | nil => rfl
  | cons a t ih =>
    rw [nlSqueeze]
    split
    · rename_i hcond
      rw [Bool.and_eq_true, decide_eq_true_eq, decide_eq_true_eq] at hcond
      obtain ⟨ha, ht⟩ := hcond
      rw [ih, ha]
      cases t with
      | nil => simp at ht
      | cons b u =>
        have hb : b = '\n' := by
          cases u <;> simp [List.take] at ht <;> exact ht.1
        rw [hb]
        rfl
    · rfl

theorem take1_head {l : List Char} {c : Char} :
    l.take 1 = [c] ↔ l.head? = some c := by
  cases l <;> simp [List.take]

theorem take2_shape {l : List Char} {a b : Char} :
    l.take 2 = [a, b] ↔ ∃ t, l = a :: b :: t := by
  cases l with
  | nil => simp [List.take]
  | cons x u =>
    cases u with
    | nil => simp [List.take]
    | cons y v => simp [List.take]

theorem nlSqueeze_take2 {l : List Char} (h : (nlSqueeze l).take 2 = ['\n', '\n']) :
    l.take 2 = ['\n', '\n'] := by
  induction l with
  | nil => simpa [nlSqueeze] using h
  | cons a t ih =>
    rw [nlSqueeze] at h
    split at h
    · rename_i hcond
      rw [Bool.and_eq_true, decide_eq_true_eq, decide_eq_true_eq] at hcond
      obtain ⟨ha, ht⟩ := hcond
      obtain ⟨u, hu⟩ := take2_shape.mp ht
      rw [ha, hu]
      rfl
    · rename_i hcond
      obtain ⟨u, hu⟩ := take2_shape.mp h
      rw [List.cons.injEq] at hu
      obtain ⟨ha, hrest⟩ := hu
      have hhead : t.head? = some '\n' := by
        rw [← nlSqueeze_head, hrest]
        rfl
      rw [List.take_succ_cons, ha, take1_head.mpr hhead]

end ChatBuddy

namespace ChatBuddy

theorem noNNN_cons_intro {a : Char} {t : List Char}
    (h1 : ¬(a = '\n' ∧ t.take 2 = ['\n', '\n'])) (h2 : noNNN t = true) :
    noNNN (a :: t) = true := by
  rw [noNNN_cons, Bool.and_eq_true]
  refine ⟨?_, h2⟩
  simp only [Bool.not_eq_true', Bool.and_eq_false_iff]
  by_cases ha : a = '\n'
  · right
    rw [decide_eq_false_iff_not]
    exact fun ht => h1 ⟨ha, ht⟩
  · left
    rw [decide_eq_false_iff_not]
    exact ha

theorem nlSqueeze_noNNN (l : List Char) : noNNN (nlSqueeze l) = true := by
  induction l with
  | nil => rfl
  | cons a t ih =>
    rw [nlSqueeze]
    split
    · exact ih
    · rename_i hcond
      refine noNNN_cons_intro ?_ ih
      intro ⟨ha, ht⟩
      exact hcond (by rw [Bool.and_eq_true, decide_eq_true_eq, decide_eq_true_eq]
                      exact ⟨ha, nlSqueeze_take2 ht⟩)

theorem spSqueeze_noTab (l : List Char) : '\t' ∉ spSqueeze l := by
  induction l using spSqueeze.induct with
  | case1 => simp [spSqueeze]
  | case2 c hc =>
    rw [spSqueeze, if_pos hc]
    simp
  | case3 c hc =>
    rw [spSqueeze, if_neg hc]
    intro hm
    rcases List.mem_singleton.mp hm with h2
    rw [← h2] at hc
    exact hc (by simp [spTab])
  | case4 c d t hc hd ih =>
    rw [spSqueeze, if_pos hc, if_pos hd]
    exact ih
  | case5 c d t hc hd ih =>
    rw [spSqueeze, if_pos hc, if_neg hd]
    intro hm
    rcases List.mem_cons.mp hm with h2 | h2
    · exact absurd h2.symm (by decide)
    · exact ih h2
  | case6 c d t hc ih =>
    rw [spSqueeze, if_neg hc]
    intro hm
    rcases List.mem_cons.mp hm with h2 | h2
    · rw [← h2] at hc
      exact hc (by simp [spTab])
    · exact ih h2

theorem spSqueeze_head (l : List Char) :
    (spSqueeze l).head? = l.head?.map (fun c => if spTab c then ' ' else c) := by
  induction l using spSqueeze.induct with
  | case1 => rfl
  | case2 c hc => rw [spSqueeze, if_pos hc]; simp [hc]
  | case3 c hc => rw [spSqueeze, if_neg hc]; simp [hc]
  | case4 c d t hc hd ih =>
    rw [spSqueeze, if_pos hc, if_pos hd, ih]
    simp [hc, hd]
  | case5 c d t hc hd ih =>
    rw [spSqueeze, if_pos hc, if_neg hd]
    show some ' ' = some (if spTab c then ' ' else c)
    rw [if_pos hc]
  | case6 c d t hc ih =>
    rw [spSqueeze, if_neg hc]
    show some c = some (if spTab c then ' ' else c)
    rw [if_neg hc]

theorem spSqueeze_noSpSp (l : List Char) : noSpSp (spSqueeze l) = true := by
  induction l using spSqueeze.induct with
  | case1 => rfl
  | case2 c hc => rw [spSqueeze, if_pos hc]; rfl
  | case3 c hc => rw [spSqueeze, if_neg hc]; rfl
  | case4 c d t hc hd ih => rw [spSqueeze, if_pos hc, if_pos hd]; exact ih
  | case5 c d t hc hd ih =>
    rw [spSqueeze, if_pos hc, if_neg hd]
    refine pairOk_cons_intro ?_ ih
    intro b hb
    rw [spSqueeze_head] at hb
    have hb2 : (if spTab d then ' ' else d) = b := Option.some.inj hb
    rw [if_neg hd] at hb2
    rw [← hb2]
    have hdf : spTab d = false := by simpa using hd
    rw [hdf]
    simp
  | case6 c d t hc ih =>
    rw [spSqueeze, if_neg hc]
    refine pairOk_cons_intro ?_ ih
    intro b hb
    simp [hc]

theorem capNext_congr {c d : Char} (hsp : sentPunct c = sentPunct d)
    (hws : jsWs c = jsWs d) (s : CapSt) : capNext s c = capNext s d := by
  unfold capNext
  rw [hsp, hws]

theorem capRun_capOK (s : CapSt) (l : List Char) : capOK s (capRun s l) = true := by
  induction l generalizing s with
  | nil => rfl
  | cons c t ih =>
    rw [capRun]
    split
    · rename_i hcond
      rw [Bool.and_eq_true] at hcond
      rw [capOK, Bool.and_eq_true]
      have hup := classEq_toUpper c
      constructor
      · rw [isLowerA_toUpper c hcond.2]
        simp
      · rw [capNext_congr hup.sp.symm hup.ws.symm s]
        exact ih (capNext s c)
    · rename_i hcond
      rw [capOK, Bool.and_eq_true]
      constructor
      · cases h2 : (armed s && isLowerA c) with
        | false => rfl
        | true => exact absurd h2 hcond
      · exact ih (capNext s c)

theorem noWsP_of_all_ws {l : List Char} (h : ∀ c ∈ l, jsWs c = true) :
    noWsP l = true := by
  induction l with
  | nil => rfl
  | cons a t ih =>
    refine pairOk_cons_intro ?_ (ih (fun c hc => h c (List.mem_cons_of_mem _ hc)))
    intro b hb
    have hbw : jsWs b = true := by
      apply h
      cases t with
      | nil => simp at hb
      | cons x u =>
        rw [← show x = b from by simpa [List.head?] using hb]
        exact List.mem_cons_of_mem _ (List.mem_cons_self _ _)
    rw [ws_not_punct6 hbw]
    simp

theorem noWsP_append_ws {u v : List Char} (hu : ∀ c ∈ u, jsWs c = true)
    (hv1 : ∀ h, v.head? = some h → punct6 h = false) (hv : noWsP v = true) :
    noWsP (u ++ v) = true := by
  induction u with
  | nil => exact hv
  | cons a t ih =>
    rw [List.cons_append]
    refine pairOk_cons_intro ?_ (ih (fun c hc => hu c (List.mem_cons_of_mem _ hc)))
    intro b hb
    cases t with
    | nil =>
      rw [List.nil_append] at hb
      rw [hv1 b hb]
      simp
    | cons x w =>
      rw [← Option.some.inj hb]
      rw [ws_not_punct6 (hu x (List.mem_cons_of_mem _ (List.mem_cons_self _ _)))]
      simp

theorem wsPunctRm_noWsP (l : List Char) (pend : List Char)
    (hpend : ∀ c ∈ pend, jsWs c = true) : noWsP (wsPunctRm pend l) = true := by
  induction l generalizing pend with
  | nil => exact noWsP_of_all_ws hpend
  | cons c t ih =>
    rw [wsPunctRm]
    by_cases hws : jsWs c = true
    · rw [if_pos hws]
      refine ih (pend ++ [c]) ?_
      intro x hx
      rcases List.mem_append.mp hx with h2 | h2
      · exact hpend x h2
      · rw [List.mem_singleton.mp h2]
        exact hws
    · rw [if_neg hws]
      by_cases hpc : punct6 c = true
      · rw [if_pos hpc]
        refine pairOk_cons_intro ?_ (ih [] (by simp))
        intro b _
        rw [punct6_not_ws hpc]
        simp
      · rw [if_neg hpc]
        refine noWsP_append_ws hpend ?_ ?_
        · intro h hh
          have h3 : h = c := (Option.some.inj hh).symm
          subst h3
          simpa using hpc
        · refine pairOk_cons_intro ?_ (ih [] (by simp))
          intro b _
          have hwsf : jsWs c = false := by simpa using hws
          rw [hwsf]
          simp

theorem sentSpace_head (l : List Char) : (sentSpace l).head? = l.head? := by
  induction l using sentSpace.induct with
  | case1 a b t hcond ih => rw [sentSpace, if_pos hcond]; rfl
  | case2 a b t hcond ih => rw [sentSpace, if_neg hcond]; rfl
  | case3 l hshape =>
    rcases l with _ | ⟨a, t⟩
    · rfl
    · rcases t with _ | ⟨b, u⟩
      · rfl
      · exact absurd rfl (fun h2 => hshape a b u h2)

theorem sentSpace_noPU (l : List Char) : noPU (sentSpace l) = true := by
  induction l using sentSpace.induct with
  | case1 a b t hcond ih =>
    rw [sentSpace, if_pos hcond]
    rw [Bool.and_eq_true] at hcond
    refine pairOk_cons_intro ?_ (pairOk_cons_intro ?_ (pairOk_cons_intro ?_ ih))
    · intro x hx
      rw [← Option.some.inj hx]
      rw [show isUpperA ' ' = false from by decide]
      simp
    · intro x hx
      rw [← Option.some.inj hx]
      rw [show sentPunct ' ' = false from by decide]
      simp
    · intro x hx
      rw [upper_not_sentPunct hcond.2]
      simp
  | case2 a b t hcond ih =>
    rw [sentSpace, if_neg hcond]
    refine pairOk_cons_intro ?_ ih
    intro x hx
    rw [sentSpace_head] at hx
    rw [← Option.some.inj hx]
    cases h2 : (sentPunct a && isUpperA b) with
    | false => rfl
    | true => exact absurd h2 hcond
  | case3 l hshape =>
    rcases l with _ | ⟨a, t⟩
    · rfl
    · rcases t with _ | ⟨b, u⟩
      · rfl
      · exact absurd rfl (fun h2 => hshape a b u h2)

end ChatBuddy

namespace ChatBuddy

/-! ### Head and last characterizations of the boundary predicates -/

theorem headOk_iff (l : List Char) :
    headOk l = true ↔ ∀ c, l.head? = some c → jsWs c = false := by
  cases l with
  | nil => simp [headOk]
  | cons a t =>
    simp only [headOk, List.head?, Bool.not_eq_true']
    constructor
    · intro h c hc
      rw [← Option.some.inj hc]
      exact h
    · intro h
      exact h a rfl

theorem tailOk_iff (l : List Char) :
    tailOk l = true ↔ ∀ c, l.getLast? = some c → jsWs c = false := by
  unfold tailOk
  rw [headOk_iff]
  constructor
  · intro h c hc
    exact h c (by rw [List.head?_reverse, hc])
  · intro h c hc
    exact h c (by rw [← List.head?_reverse, hc])

theorem getLast?_cons_ne {c : Char} {u : List Char} (h : u ≠ []) :
    (c :: u).getLast? = u.getLast? := by
  cases u with
  | nil => exact absurd rfl h
  | cons x v => exact List.getLast?_cons_cons

theorem forall2_append {R : Char → Char → Prop} {a b c d : List Char}
    (h1 : List.Forall₂ R a b) (h2 : List.Forall₂ R c d) :
    List.Forall₂ R (a ++ c) (b ++ d) := by
  induction h1 with
  | nil => exact h2
  | cons hr hall ih => exact List.Forall₂.cons hr ih

end ChatBuddy

namespace ChatBuddy

/-! ### Preservation through the carriage return steps -/

theorem crlfCollapse_ne_nil {l : List Char} (h : l ≠ []) : crlfCollapse l ≠ [] := by
  induction l using crlfCollapse.induct with
  | case1 => exact absurd rfl h
  | case2 c => simp [crlfCollapse]
  | case3 c d t hcd ih =>
    rw [crlfCollapse, if_pos hcd]
    simp
  | case4 c d t hcd ih =>
    rw [crlfCollapse, if_neg hcd]
    simp

theorem crlfCollapse_headOk {l : List Char} (h : headOk l = true) :
    headOk (crlfCollapse l) = true := by
  induction l using crlfCollapse.induct with
  | case1 => rfl
  | case2 c => exact h
  | case3 c d t hcd ih =>
    rw [hcd.1] at h
    have h2 : headOk ('\r' :: d :: t) = false := rfl
    rw [h2] at h
    exact absurd h (by decide)
  | case4 c d t hcd ih =>
    rw [crlfCollapse, if_neg hcd]
    simpa [headOk] using h

theorem crlfCollapse_last (l : List Char) :
    (crlfCollapse l).getLast? = l.getLast? := by
  induction l using crlfCollapse.induct with
  | case1 => rfl
  | case2 c => rfl
  | case3 c d t hcd ih =>
    rw [crlfCollapse, if_pos hcd, hcd.1, hcd.2]
    cases t with
    | nil => rfl
    | cons x u =>
      have hne : crlfCollapse (x :: u) ≠ [] := crlfCollapse_ne_nil (by simp)
      rw [getLast?_cons_ne hne, ih, List.getLast?_cons_cons,
        getLast?_cons_ne (List.cons_ne_nil x u)]
  | case4 c d t hcd ih =>
    rw [crlfCollapse, if_neg hcd]
    have hne : crlfCollapse (d :: t) ≠ [] := crlfCollapse_ne_nil (by simp)
    rw [getLast?_cons_ne hne, ih, List.getLast?_cons_cons]

theorem crlfCollapse_tailOk {l : List Char} (h : tailOk l = true) :
    tailOk (crlfCollapse l) = true := by
  rw [tailOk_iff] at h ⊢
  intro c hc
  rw [crlfCollapse_last] at hc
  exact h c hc

theorem jsWs_crf (c : Char) : jsWs (if c = '\r' then '\n' else c) = jsWs c := by
  by_cases h : c = '\r'
  · rw [if_pos h, h]
    decide
  · rw [if_neg h]

theorem crMap_headOk {l : List Char} (h : headOk l = true) :
    headOk (crMap l) = true := by
  cases l with
  | nil => rfl
  | cons a t =>
    show (!jsWs (if a = '\r' then '\n' else a)) = true
    rw [jsWs_crf]
    exact h

theorem crMap_tailOk {l : List Char} (h : tailOk l = true) :
    tailOk (crMap l) = true := by
  rw [tailOk_iff] at h ⊢
  intro c hc
  unfold crMap at hc
  rw [List.getLast?_map] at hc
  obtain ⟨d, hd, hdc⟩ := Option.map_eq_some'.mp hc
  rw [← hdc, jsWs_crf]
  exact h d hd

end ChatBuddy

namespace ChatBuddy

/-! ### Preservation through nlSqueeze -/

theorem nlSqueeze_ne_nil {l : List Char} (h : l ≠ []) : nlSqueeze l ≠ [] := by
  intro h2
  have h3 := nlSqueeze_head l
  rw [h2] at h3
  cases l with
  | nil => exact h rfl
  | cons a t => simp at h3

theorem nlSqueeze_headOk {l : List Char} (h : headOk l = true) :
    headOk (nlSqueeze l) = true := by
  rw [headOk_iff] at h ⊢
  intro c hc
  rw [nlSqueeze_head] at hc
  exact h c hc

theorem nlSqueeze_last (l : List Char) : (nlSqueeze l).getLast? = l.getLast? := by
  induction l with
  | nil => rfl
  | cons a t ih =>
    rw [nlSqueeze]
    split
    · rename_i hcond
      rw [Bool.and_eq_true, decide_eq_true_eq, decide_eq_true_eq] at hcond
      obtain ⟨u, hu⟩ := take2_shape.mp hcond.2
      rw [ih, getLast?_cons_ne (by rw [hu]; simp)]
    · cases t with
      | nil => rfl
      | cons x u =>
        rw [getLast?_cons_ne (nlSqueeze_ne_nil (List.cons_ne_nil x u)), ih,
          getLast?_cons_ne (List.cons_ne_nil x u)]

theorem nlSqueeze_tailOk {l : List Char} (h : tailOk l = true) :
    tailOk (nlSqueeze l) = true := by
  rw [tailOk_iff] at h ⊢
  intro c hc
  rw [nlSqueeze_last] at hc
  exact h c hc

theorem nlSqueeze_subset {c : Char} {l : List Char} (h : c ∈ nlSqueeze l) : c ∈ l := by
  induction l with
  | nil => exact absurd h (by simp [nlSqueeze])
  | cons a t ih =>
    rw [nlSqueeze] at h
    split at h
    · exact List.mem_cons_of_mem _ (ih h)
    · rcases List.mem_cons.mp h with h2 | h2
      · exact List.mem_cons.mpr (Or.inl h2)
      · exact List.mem_cons_of_mem _ (ih h2)

theorem nlSqueeze_noCR {l : List Char} (h : '\r' ∉ l) : '\r' ∉ nlSqueeze l :=
  fun hm => h (nlSqueeze_subset hm)

end ChatBuddy

namespace ChatBuddy

/-! ### Preservation through spSqueeze -/

theorem spSqueeze_ne_nil {l : List Char} (h : l ≠ []) : spSqueeze l ≠ [] := by
  intro h2
  have h3 := spSqueeze_head l
  rw [h2] at h3
  cases l with
  | nil => exact h rfl
  | cons a t => simp at h3

theorem spSqueeze_headOk {l : List Char} (h : headOk l = true) :
    headOk (spSqueeze l) = true := by
  rw [headOk_iff] at h ⊢
  intro c hc
  rw [spSqueeze_head] at hc
  cases hl : l.head? with
  | none => rw [hl] at hc; exact absurd hc (by simp)
  | some d =>
    rw [hl] at hc
    have hd := h d hl
    have h2 : (if spTab d then ' ' else d) = c := Option.some.inj hc
    rw [if_neg (by rw [not_ws_not_spTab hd]; simp)] at h2
    rw [← h2]
    exact hd

theorem spSqueeze_last (l : List Char) :
    (spSqueeze l).getLast? = l.getLast?.map (fun c => if spTab c then ' ' else c) := by
  induction l using spSqueeze.induct with
  | case1 => rfl
  | case2 c hc =>
    rw [spSqueeze, if_pos hc]
    show some ' ' = some (if spTab c then ' ' else c)
    rw [if_pos hc]
  | case3 c hc =>
    rw [spSqueeze, if_neg hc]
    show some c = some (if spTab c then ' ' else c)
    rw [if_neg hc]
  | case4 c d t hc hd ih =>
    rw [spSqueeze, if_pos hc, if_pos hd, ih, List.getLast?_cons_cons]
  | case5 c d t hc hd ih =>
    rw [spSqueeze, if_pos hc, if_neg hd,
      getLast?_cons_ne (spSqueeze_ne_nil (List.cons_ne_nil d t)), ih,
      List.getLast?_cons_cons]
  | case6 c d t hc ih =>
    rw [spSqueeze, if_neg hc,
      getLast?_cons_ne (spSqueeze_ne_nil (List.cons_ne_nil d t)), ih,
      List.getLast?_cons_cons]

theorem spSqueeze_tailOk {l : List Char} (h : tailOk l = true) :
    tailOk (spSqueeze l) = true := by
  rw [tailOk_iff] at h ⊢
  intro c hc
  rw [spSqueeze_last] at hc
  obtain ⟨d, hd, hdc⟩ := Option.map_eq_some'.mp hc
  have hdw := h d hd
  rw [if_neg (by rw [not_ws_not_spTab hdw]; simp)] at hdc
  rw [← hdc]
  exact hdw

theorem spSqueeze_mem {c : Char} {l : List Char} (h : c ∈ spSqueeze l) :
    c ∈ l ∨ c = ' ' := by
  induction l using spSqueeze.induct with
  | case1 => exact absurd h (by simp [spSqueeze])
  | case2 d hd =>
    rw [spSqueeze, if_pos hd] at h
    exact Or.inr (List.mem_singleton.mp h)
  | case3 d hd =>
    rw [spSqueeze, if_neg hd] at h
    exact Or.inl h
  | case4 d e t hd he ih =>
    rw [spSqueeze, if_pos hd, if_pos he] at h
    rcases ih h with h2 | h2
    · exact Or.inl (List.mem_cons_of_mem _ h2)
    · exact Or.inr h2
  | case5 d e t hd he ih =>
    rw [spSqueeze, if_pos hd, if_neg he] at h
    rcases List.mem_cons.mp h with h2 | h2
    · exact Or.inr h2
    · rcases ih h2 with h3 | h3
      · exact Or.inl (List.mem_cons_of_mem _ h3)
      · exact Or.inr h3
  | case6 d e t hd ih =>
    rw [spSqueeze, if_neg hd] at h
    rcases List.mem_cons.mp h with h2 | h2
    · exact Or.inl (h2 ▸ List.mem_cons_self _ _)
    · rcases ih h2 with h3 | h3
      · exact Or.inl (List.mem_cons_of_mem _ h3)
      · exact Or.inr h3

theorem spSqueeze_noCR {l : List Char} (h : '\r' ∉ l) : '\r' ∉ spSqueeze l := by
  intro hm
  rcases spSqueeze_mem hm with h2 | h2
  · exact h h2
  · exact absurd h2 (by decide)

theorem spSqueeze_take2 {l : List Char} (h : (spSqueeze l).take 2 = ['\n', '\n']) :
    l.take 2 = ['\n', '\n'] := by
  induction l using spSqueeze.induct with
  | case1 => exact absurd h (by decide)
  | case2 c hc =>
    rw [spSqueeze, if_pos hc] at h
    exact absurd h (by decide)
  | case3 c hc =>
    rw [spSqueeze, if_neg hc] at h
    simp only [List.take] at h
    exact absurd h (by simp)
  | case4 c d t hc hd ih =>
    rw [spSqueeze, if_pos hc, if_pos hd] at h
    obtain ⟨u, hu⟩ := take2_shape.mp (ih h)
    rw [List.cons.injEq] at hu
    rw [hu.1] at hd
    exact absurd hd (by decide)
  | case5 c d t hc hd ih =>
    rw [spSqueeze, if_pos hc, if_neg hd, List.take_succ_cons] at h
    simp only [List.cons.injEq] at h
    exact absurd h.1 (by decide)
  | case6 c d t hc ih =>
    rw [spSqueeze, if_neg hc, List.take_succ_cons] at h
    simp only [List.cons.injEq] at h
    obtain ⟨hc2, h2⟩ := h
    have hd : (spSqueeze (d :: t)).head? = some '\n' := by
      rcases hs : spSqueeze (d :: t) with _ | ⟨x, u⟩
      · rw [hs] at h2; exact absurd h2 (by decide)
      · rw [hs] at h2
        simp only [List.take, List.cons.injEq] at h2
        rw [h2.1]
        rfl
    rw [spSqueeze_head] at hd
    have h3 : (if spTab d then ' ' else d) = '\n' := Option.some.inj hd
    have hdn : d = '\n' := by
      by_cases h4 : spTab d = true
      · rw [if_pos h4] at h3
        exact absurd h3 (by decide)
      · rw [if_neg h4] at h3
        exact h3
    rw [hc2, hdn]
    rfl

theorem spSqueeze_noNNN {l : List Char} (h : noNNN l = true) :
    noNNN (spSqueeze l) = true := by
  induction l using spSqueeze.induct with
  | case1 => rfl
  | case2 c hc => rw [spSqueeze, if_pos hc]; rfl
  | case3 c hc => rw [spSqueeze, if_neg hc]; rfl
  | case4 c d t hc hd ih =>
    rw [spSqueeze, if_pos hc, if_pos hd]
    exact ih (noNNN_tail h)
  | case5 c d t hc hd ih =>
    rw [spSqueeze, if_pos hc, if_neg hd]
    exact noNNN_cons_intro (fun h2 => absurd h2.1 (by decide)) (ih (noNNN_tail h))
  | case6 c d t hc ih =>
    rw [spSqueeze, if_neg hc]
    refine noNNN_cons_intro ?_ (ih (noNNN_tail h))
    intro h2
    rw [noNNN_cons, Bool.and_eq_true] at h
    exact bool_neg_elim h.1 (by
      rw [Bool.and_eq_true, decide_eq_true_eq, decide_eq_true_eq]
      exact ⟨h2.1, spSqueeze_take2 h2.2⟩)

end ChatBuddy

namespace ChatBuddy

/-! ### The capitalization state fold and its append rule -/

def capFold (s : CapSt) (l : List Char) : CapSt := l.foldl capNext s

theorem capOK_append (s : CapSt) (u v : List Char) :
    capOK s (u ++ v) = (capOK s u && capOK (capFold s u) v) := by
  induction u generalizing s with
  | nil => simp [capOK, capFold]
  | cons c t ih =>
    show (!(armed s && isLowerA c) && capOK (capNext s c) (t ++ v)) =
      ((!(armed s && isLowerA c) && capOK (capNext s c) t) &&
        capOK (capFold (capNext s c) t) v)
    rw [ih (capNext s c), Bool.and_assoc]

theorem capNext_punct {c : Char} (h : sentPunct c = true) (s : CapSt) :
    capNext s c = CapSt.punct := by
  unfold capNext
  rw [if_pos h]

theorem capNext_plain {c : Char} (h1 : sentPunct c = false) (h2 : jsWs c = false)
    (s : CapSt) : capNext s c = CapSt.other := by
  unfold capNext
  rw [if_neg (by rw [h1]; simp), if_neg (by rw [h2]; simp)]

theorem capNext_punct6_const {c : Char} (h : punct6 c = true) (s s2 : CapSt) :
    capNext s c = capNext s2 c := by
  by_cases hsp : sentPunct c = true
  · rw [capNext_punct hsp, capNext_punct hsp]
  · have h2 : sentPunct c = false := by simpa using hsp
    rw [capNext_plain h2 (punct6_not_ws h), capNext_plain h2 (punct6_not_ws h)]

theorem punct6_not_lower {c : Char} (h : punct6 c = true) : isLowerA c = false := by
  rw [punct6_iff] at h
  cases h2 : isLowerA c
  · rfl
  · rw [isLowerA_iff] at h2
    omega

theorem ws_not_lower {c : Char} (h : jsWs c = true) : isLowerA c = false := by
  rw [jsWs_iff] at h
  cases h2 : isLowerA c
  · rfl
  · rw [isLowerA_iff] at h2
    omega

theorem sentPunct_punct6 {c : Char} (h : sentPunct c = true) : punct6 c = true := by
  rw [sentPunct_iff] at h
  rw [punct6_iff]
  omega

theorem wsPunctRm_capOK : ∀ {l : List Char} (s : CapSt) (pend : List Char),
    capOK s (pend ++ l) = true → capOK s (wsPunctRm pend l) = true := by
  intro l
  induction l with
  | nil =>
    intro s pend h
    rw [wsPunctRm]
    rw [List.append_nil] at h
    exact h
  | cons c t ih =>
    intro s pend h
    rw [wsPunctRm]
    by_cases hws : jsWs c = true
    · rw [if_pos hws]
      exact ih s (pend ++ [c]) (by rw [List.append_assoc]; exact h)
    · rw [if_neg hws]
      rw [capOK_append, Bool.and_eq_true] at h
      obtain ⟨hpend, hrest⟩ := h
      rw [capOK, Bool.and_eq_true] at hrest
      by_cases hp : punct6 c = true
      · rw [if_pos hp]
        rw [capOK, Bool.and_eq_true]
        constructor
        · rw [punct6_not_lower hp]
          simp
        · refine ih (capNext s c) [] ?_
          rw [List.nil_append, capNext_punct6_const hp s (capFold s pend)]
          exact hrest.2
      · rw [if_neg hp]
        rw [capOK_append, Bool.and_eq_true]
        refine ⟨hpend, ?_⟩
        rw [capOK, Bool.and_eq_true]
        refine ⟨hrest.1, ?_⟩
        refine ih (capNext (capFold s pend) c) [] ?_
        rw [List.nil_append]
        exact hrest.2

end ChatBuddy

namespace ChatBuddy

/-! ### Preservation of the remaining predicates through wsPunctRm -/

theorem wsPunctRm_mem {c : Char} : ∀ {l : List Char} (pend : List Char),
    c ∈ wsPunctRm pend l → c ∈ pend ∨ c ∈ l := by
  intro l
  induction l with
  | nil =>
    intro pend h
    rw [wsPunctRm] at h
    exact Or.inl h
  | cons a t ih =>
    intro pend h
    rw [wsPunctRm] at h
    by_cases hws : jsWs a = true
    · rw [if_pos hws] at h
      rcases ih (pend ++ [a]) h with h2 | h2
      · rcases List.mem_append.mp h2 with h3 | h3
        · exact Or.inl h3
        · exact Or.inr (List.mem_cons.mpr (Or.inl (List.mem_singleton.mp h3)))
      · exact Or.inr (List.mem_cons_of_mem _ h2)
    · rw [if_neg hws] at h
      by_cases hp : punct6 a = true
      · rw [if_pos hp] at h
        rcases List.mem_cons.mp h with h2 | h2
        · exact Or.inr (h2 ▸ List.mem_cons_self _ _)
        · rcases ih [] h2 with h3 | h3
          · exact absurd h3 (List.not_mem_nil c)
          · exact Or.inr (List.mem_cons_of_mem _ h3)
      · rw [if_neg hp] at h
        rcases List.mem_append.mp h with h2 | h2
        · exact Or.inl h2
        · rcases List.mem_cons.mp h2 with h3 | h3
          · exact Or.inr (h3 ▸ List.mem_cons_self _ _)
          · rcases ih [] h3 with h4 | h4
            · exact absurd h4 (List.not_mem_nil c)
            · exact Or.inr (List.mem_cons_of_mem _ h4)

theorem wsPunctRm_noCR {l : List Char} (h : '\r' ∉ l) : '\r' ∉ wsPunctRm [] l :=
  fun hm => (wsPunctRm_mem [] hm).elim (fun h2 => absurd h2 (List.not_mem_nil _)) h

theorem wsPunctRm_noTab {l : List Char} (h : '\t' ∉ l) : '\t' ∉ wsPunctRm [] l :=
  fun hm => (wsPunctRm_mem [] hm).elim (fun h2 => absurd h2 (List.not_mem_nil _)) h

theorem wsPunctRm_eq_nil : ∀ {l : List Char} {pend : List Char},
    wsPunctRm pend l = [] → pend = [] ∧ l = [] := by
  intro l
  induction l with
  | nil =>
    intro pend h
    rw [wsPunctRm] at h
    exact ⟨h, rfl⟩
  | cons c t ih =>
    intro pend h
    rw [wsPunctRm] at h
    by_cases hws : jsWs c = true
    · rw [if_pos hws] at h
      exact absurd (ih h).1 (by simp)
    · rw [if_neg hws] at h
      by_cases hp : punct6 c = true
      · rw [if_pos hp] at h
        exact absurd h (by simp)
      · rw [if_neg hp] at h
        exact absurd (List.append_eq_nil.mp h).2 (by simp)

theorem wsPunctRm_headOk {l : List Char} (h : headOk l = true) :
    headOk (wsPunctRm [] l) = true := by
  cases l with
  | nil => rfl
  | cons c t =>
    have hc : jsWs c = false := by simpa [headOk] using h
    rw [wsPunctRm, if_neg (by rw [hc]; simp)]
    by_cases hp : punct6 c = true
    · rw [if_pos hp]
      show (!jsWs c) = true
      rw [hc]
      rfl
    · rw [if_neg hp, List.nil_append]
      show (!jsWs c) = true
      rw [hc]
      rfl

theorem wsPunctRm_last : ∀ {l : List Char} (pend : List Char), l ≠ [] →
    (∀ c, l.getLast? = some c → jsWs c = false) →
    (wsPunctRm pend l).getLast? = l.getLast? := by
  intro l
  induction l with
  | nil =>
    intro pend h _
    exact absurd rfl h
  | cons c t ih =>
    intro pend _ hlast
    rw [wsPunctRm]
    by_cases hws : jsWs c = true
    · rw [if_pos hws]
      cases t with
      | nil =>
        exfalso
        have h2 := hlast c rfl
        rw [hws] at h2
        exact absurd h2 (by decide)
      | cons x u =>
        rw [ih (pend ++ [c]) (List.cons_ne_nil x u)
          (fun d hd => hlast d (by rw [getLast?_cons_ne (List.cons_ne_nil x u)]; exact hd)),
          getLast?_cons_ne (List.cons_ne_nil x u)]
    · rw [if_neg hws]
      by_cases hp : punct6 c = true
      · rw [if_pos hp]
        cases t with
        | nil => rw [wsPunctRm]
        | cons x u =>
          have hWne : wsPunctRm [] (x :: u) ≠ [] :=
            fun h2 => absurd (wsPunctRm_eq_nil h2).2 (by simp)
          rw [getLast?_cons_ne hWne,
            ih [] (List.cons_ne_nil x u)
              (fun d hd => hlast d (by rw [getLast?_cons_ne (List.cons_ne_nil x u)]; exact hd)),
            getLast?_cons_ne (List.cons_ne_nil x u)]
      · rw [if_neg hp]
        cases t with
        | nil =>
          show (pend ++ [c]).getLast? = ([c]).getLast?
          rw [List.getLast?_concat]
          rfl
        | cons x u =>
          have hWne : wsPunctRm [] (x :: u) ≠ [] :=
            fun h2 => absurd (wsPunctRm_eq_nil h2).2 (by simp)
          rw [List.getLast?_append_of_ne_nil pend (List.cons_ne_nil c _),
            getLast?_cons_ne hWne,
            ih [] (List.cons_ne_nil x u)
              (fun d hd => hlast d (by rw [getLast?_cons_ne (List.cons_ne_nil x u)]; exact hd)),
            getLast?_cons_ne (List.cons_ne_nil x u)]

theorem wsPunctRm_tailOk {l : List Char} (h : tailOk l = true) :
    tailOk (wsPunctRm [] l) = true := by
  cases l with
  | nil => rfl
  | cons c t =>
    rw [tailOk_iff] at h ⊢
    intro d hd
    rw [wsPunctRm_last [] (List.cons_ne_nil c t) h] at hd
    exact h d hd

theorem pairOk_head_elim {bad : Char → Char → Bool} {a : Char} {t : List Char}
    (h : pairOk bad (a :: t) = true) {b : Char} (hb : t.head? = some b) :
    bad a b = false := by
  rw [pairOk_cons, Bool.and_eq_true] at h
  have h1 := h.1
  rw [hb] at h1
  simpa using h1

theorem head?_append_eq (u v w : List Char) (c : Char) :
    (u ++ c :: v).head? = (u ++ c :: w).head? := by
  cases u <;> rfl

theorem pairOk_glue {bad : Char → Char → Bool} {u v : List Char} {c : Char}
    (h1 : pairOk bad (u ++ [c]) = true) (h2 : pairOk bad v = true)
    (hc : ∀ b, v.head? = some b → bad c b = false) :
    pairOk bad (u ++ c :: v) = true := by
  induction u with
  | nil => exact pairOk_cons_intro hc h2
  | cons a t ih =>
    rw [List.cons_append] at h1 ⊢
    refine pairOk_cons_intro ?_ (ih (pairOk_tail h1))
    intro b hb
    rw [head?_append_eq t v [] c] at hb
    exact pairOk_head_elim h1 hb

theorem wsPunctRm_noSpSp : ∀ {l : List Char} (pend : List Char),
    noSpSp (pend ++ l) = true → noSpSp (wsPunctRm pend l) = true := by
  intro l
  induction l with
  | nil =>
    intro pend h
    rw [wsPunctRm]
    rw [List.append_nil] at h
    exact h
  | cons c t ih =>
    intro pend h
    rw [wsPunctRm]
    by_cases hws : jsWs c = true
    · rw [if_pos hws]
      exact ih (pend ++ [c]) (by rw [List.append_assoc]; exact h)
    · rw [if_neg hws]
      have hsuf : noSpSp t = true := by
        refine pairOk_suffix (pend ++ [c]) ?_
        rw [List.append_assoc]
        exact h
      have hcs : spTab c = false := not_ws_not_spTab (by simpa using hws)
      by_cases hp : punct6 c = true
      · rw [if_pos hp]
        refine pairOk_cons_intro ?_ (ih [] (by rw [List.nil_append]; exact hsuf))
        intro b _
        rw [hcs]
        simp
      · rw [if_neg hp]
        refine pairOk_glue ?_ (ih [] (by rw [List.nil_append]; exact hsuf)) ?_
        · refine pairOk_prefix t ?_
          rw [List.append_assoc]
          exact h
        · intro b _
          rw [hcs]
          simp

end ChatBuddy

namespace ChatBuddy

/-! ### Blank line structure survives wsPunctRm -/

theorem noNNN_suffix (u : List Char) {v : List Char}
    (h : noNNN (u ++ v) = true) : noNNN v = true := by
  induction u with
  | nil => exact h
  | cons a t ih => exact ih (noNNN_tail h)

theorem wsPunctRm_head_nl : ∀ {l : List Char} (pend : List Char),
    (wsPunctRm pend l).head? = some '\n' → (pend ++ l).head? = some '\n' := by
  intro l
  induction l with
  | nil =>
    intro pend h
    rw [wsPunctRm] at h
    rw [List.append_nil]
    exact h
  | cons c t ih =>
    intro pend h
    rw [wsPunctRm] at h
    by_cases hws : jsWs c = true
    · rw [if_pos hws] at h
      have h2 := ih (pend ++ [c]) h
      rw [List.append_assoc] at h2
      exact h2
    · rw [if_neg hws] at h
      by_cases hp : punct6 c = true
      · rw [if_pos hp] at h
        have h2 : c = '\n' := Option.some.inj h
        rw [h2] at hp
        exact absurd hp (by decide)
      · rw [if_neg hp] at h
        cases pend with
        | nil =>
          have h2 : c = '\n' := Option.some.inj h
          rw [List.nil_append, h2]
          rfl
        | cons p q =>
          rw [List.cons_append] at h ⊢
          exact h

theorem wsPunctRm_take2 : ∀ {l : List Char} (pend : List Char),
    (wsPunctRm pend l).take 2 = ['\n', '\n'] →
    (pend ++ l).take 2 = ['\n', '\n'] := by
  intro l
  induction l with
  | nil =>
    intro pend h
    rw [wsPunctRm] at h
    rw [List.append_nil]
    exact h
  | cons c t ih =>
    intro pend h
    rw [wsPunctRm] at h
    by_cases hws : jsWs c = true
    · rw [if_pos hws] at h
      have h2 := ih (pend ++ [c]) h
      rw [List.append_assoc] at h2
      exact h2
    · rw [if_neg hws] at h
      by_cases hp : punct6 c = true
      · rw [if_pos hp] at h
        obtain ⟨u2, hu⟩ := take2_shape.mp h
        rw [List.cons.injEq] at hu
        rw [hu.1] at hp
        exact absurd hp (by decide)
      · rw [if_neg hp] at h
        rcases pend with _ | ⟨p, q⟩
        · rw [List.nil_append] at h ⊢
          rw [List.take_succ_cons, List.cons.injEq] at h ⊢
          obtain ⟨hc2, h2⟩ := h
          refine ⟨hc2, ?_⟩
          have hWh : (wsPunctRm [] t).head? = some '\n' := by
            rcases hW : wsPunctRm [] t with _ | ⟨x, u⟩
            · rw [hW] at h2
              exact absurd h2 (by decide)
            · rw [hW] at h2
              simp only [List.take, List.cons.injEq] at h2
              rw [h2.1]
              rfl
          have h3 := wsPunctRm_head_nl [] hWh
          rw [List.nil_append] at h3
          rw [take1_head.mpr h3]
        · rw [List.cons_append, List.take_succ_cons, List.cons.injEq] at h ⊢
          refine ⟨h.1, ?_⟩
          have he : (q ++ c :: wsPunctRm [] t).take 1 = (q ++ c :: t).take 1 := by
            cases q <;> rfl
          rw [← he]
          exact h.2

theorem noNNN_glue {P W t : List Char} {c : Char}
    (h : noNNN (P ++ c :: t) = true) (hW : noNNN W = true)
    (h1 : W.head? = some '\n' → t.head? = some '\n')
    (h2 : W.take 2 = ['\n', '\n'] → t.take 2 = ['\n', '\n']) :
    noNNN (P ++ c :: W) = true := by
  induction P with
  | nil =>
    rw [List.nil_append] at h ⊢
    refine noNNN_cons_intro ?_ hW
    intro hcond
    rw [noNNN_cons, Bool.and_eq_true] at h
    exact bool_neg_elim h.1 (by
      rw [Bool.and_eq_true, decide_eq_true_eq, decide_eq_true_eq]
      exact ⟨hcond.1, h2 hcond.2⟩)
  | cons p P2 ih =>
    rw [List.cons_append] at h ⊢
    refine noNNN_cons_intro ?_ (ih (noNNN_tail h))
    intro hcond
    rw [noNNN_cons, Bool.and_eq_true] at h
    refine bool_neg_elim h.1 ?_
    rw [Bool.and_eq_true, decide_eq_true_eq, decide_eq_true_eq]
    refine ⟨hcond.1, ?_⟩
    have ht := hcond.2
    rcases P2 with _ | ⟨x, q⟩
    · rw [List.nil_append, List.take_succ_cons, List.cons.injEq] at ht ⊢
      obtain ⟨hc, hW2⟩ := ht
      refine ⟨hc, ?_⟩
      have hWh : W.head? = some '\n' := by
        rcases hW3 : W with _ | ⟨y, u⟩
        · rw [hW3] at hW2
          exact absurd hW2 (by decide)
        · rw [hW3] at hW2
          simp only [List.take, List.cons.injEq] at hW2
          rw [hW2.1]
          rfl
      rw [take1_head.mpr (h1 hWh)]
    · rcases q with _ | ⟨y, u⟩
      · exact ht
      · exact ht

theorem wsPunctRm_noNNN : ∀ {l : List Char} (pend : List Char),
    noNNN (pend ++ l) = true → noNNN (wsPunctRm pend l) = true := by
  intro l
  induction l with
  | nil =>
    intro pend h
    rw [wsPunctRm]
    rw [List.append_nil] at h
    exact h
  | cons c t ih =>
    intro pend h
    rw [wsPunctRm]
    by_cases hws : jsWs c = true
    · rw [if_pos hws]
      exact ih (pend ++ [c]) (by rw [List.append_assoc]; exact h)
    · rw [if_neg hws]
      have hsuf : noNNN t = true := by
        refine noNNN_suffix (pend ++ [c]) ?_
        rw [List.append_assoc]
        exact h
      by_cases hp : punct6 c = true
      · rw [if_pos hp]
        refine noNNN_cons_intro ?_ (ih [] (by rw [List.nil_append]; exact hsuf))
        intro hcond
        rw [hcond.1] at hp
        exact absurd hp (by decide)
      · rw [if_neg hp]
        refine noNNN_glue h (ih [] (by rw [List.nil_append]; exact hsuf)) ?_ ?_
        · intro hWh
          have h3 := wsPunctRm_head_nl [] hWh
          rw [List.nil_append] at h3
          exact h3
        · intro hW2
          have h3 := wsPunctRm_take2 [] hW2
          rw [List.nil_append] at h3
          exact h3

end ChatBuddy

namespace ChatBuddy

/-! ### Preservation through sentSpace -/

theorem upper_not_punct6 {c : Char} (h : isUpperA c = true) : punct6 c = false := by
  cases hp : punct6 c
  · rfl
  · rw [punct6_iff] at hp
    rw [isUpperA_iff] at h
    omega

theorem upper_not_lower {c : Char} (h : isUpperA c = true) : isLowerA c = false := by
  cases hp : isLowerA c
  · rfl
  · rw [isLowerA_iff] at hp
    rw [isUpperA_iff] at h
    omega

theorem sentSpace_ne_nil {l : List Char} (h : l ≠ []) : sentSpace l ≠ [] := by
  intro h2
  have h3 := sentSpace_head l
  rw [h2] at h3
  cases l with
  | nil => exact h rfl
  | cons a t => simp at h3

theorem sentSpace_headOk {l : List Char} (h : headOk l = true) :
    headOk (sentSpace l) = true := by
  rw [headOk_iff] at h ⊢
  intro c hc
  rw [sentSpace_head] at hc
  exact h c hc

theorem sentSpace_last (l : List Char) : (sentSpace l).getLast? = l.getLast? := by
  induction l using sentSpace.induct with
  | case1 a b t hcond ih =>
    rw [sentSpace, if_pos hcond]
    cases t with
    | nil => rfl
    | cons x u =>
      rw [List.getLast?_cons_cons, List.getLast?_cons_cons,
        getLast?_cons_ne (sentSpace_ne_nil (List.cons_ne_nil x u)), ih,
        List.getLast?_cons_cons, List.getLast?_cons_cons]
  | case2 a b t hcond ih =>
    rw [sentSpace, if_neg hcond,
      getLast?_cons_ne (sentSpace_ne_nil (List.cons_ne_nil b t)), ih,
      List.getLast?_cons_cons]
  | case3 l hshape =>
    rcases l with _ | ⟨a, t⟩
    · rfl
    · rcases t with _ | ⟨b, u⟩
      · rfl
      · exact absurd rfl (fun h2 => hshape a b u h2)

theorem sentSpace_tailOk {l : List Char} (h : tailOk l = true) :
    tailOk (sentSpace l) = true := by
  rw [tailOk_iff] at h ⊢
  intro c hc
  rw [sentSpace_last] at hc
  exact h c hc

theorem sentSpace_mem {c : Char} : ∀ {l : List Char}, c ∈ sentSpace l →
    c ∈ l ∨ c = ' ' := by
  intro l
  induction l using sentSpace.induct with
  | case1 a b t hcond ih =>
    intro h
    rw [sentSpace, if_pos hcond] at h
    rcases List.mem_cons.mp h with h2 | h2
    · exact Or.inl (h2 ▸ List.mem_cons_self _ _)
    · rcases List.mem_cons.mp h2 with h3 | h3
      · exact Or.inr h3
      · rcases List.mem_cons.mp h3 with h4 | h4
        · exact Or.inl (h4 ▸ List.mem_cons_of_mem _ (List.mem_cons_self _ _))
        · rcases ih h4 with h5 | h5
          · exact Or.inl (List.mem_cons_of_mem _ (List.mem_cons_of_mem _ h5))
          · exact Or.inr h5
  | case2 a b t hcond ih =>
    intro h
    rw [sentSpace, if_neg hcond] at h
    rcases List.mem_cons.mp h with h2 | h2
    · exact Or.inl (h2 ▸ List.mem_cons_self _ _)
    · rcases ih h2 with h3 | h3
      · exact Or.inl (List.mem_cons_of_mem _ h3)
      · exact Or.inr h3
  | case3 l hshape =>
    intro h
    rcases l with _ | ⟨a, t⟩
    · exact Or.inl h
    · rcases t with _ | ⟨b, u⟩
      · exact Or.inl h
      · exact absurd rfl (fun h2 => hshape a b u h2)

theorem sentSpace_noCR {l : List Char} (h : '\r' ∉ l) : '\r' ∉ sentSpace l := by
  intro hm
  rcases sentSpace_mem hm with h2 | h2
  · exact h h2
  · exact absurd h2 (by decide)

theorem sentSpace_noTab {l : List Char} (h : '\t' ∉ l) : '\t' ∉ sentSpace l := by
  intro hm
  rcases sentSpace_mem hm with h2 | h2
  · exact h h2
  · exact absurd h2 (by decide)

theorem sentSpace_take2 {l : List Char} (h : (sentSpace l).take 2 = ['\n', '\n']) :
    l.take 2 = ['\n', '\n'] := by
  induction l using sentSpace.induct with
  | case1 a b t hcond ih =>
    rw [sentSpace, if_pos hcond] at h
    obtain ⟨u, hu⟩ := take2_shape.mp h
    simp only [List.cons.injEq] at hu
    exact absurd hu.2.1 (by decide)
  | case2 a b t hcond ih =>
    rw [sentSpace, if_neg hcond, List.take_succ_cons, List.cons.injEq] at h
    obtain ⟨ha, h2⟩ := h
    have hb : b = '\n' := by
      rcases hs : sentSpace (b :: t) with _ | ⟨x, u⟩
      · rw [hs] at h2
        exact absurd h2 (by decide)
      · rw [hs] at h2
        simp only [List.take, List.cons.injEq] at h2
        have h3 := sentSpace_head (b :: t)
        rw [hs] at h3
        have h4 : x = b := Option.some.inj h3
        rw [← h4, h2.1]
    rw [ha, hb]
    rfl
  | case3 l hshape =>
    rcases l with _ | ⟨a, t⟩
    · exact h
    · rcases t with _ | ⟨b, u⟩
      · exact h
      · exact absurd rfl (fun h2 => hshape a b u h2)

theorem sentSpace_noNNN {l : List Char} (h : noNNN l = true) :
    noNNN (sentSpace l) = true := by
  induction l using sentSpace.induct with
  | case1 a b t hcond ih =>
    rw [sentSpace, if_pos hcond]
    rw [Bool.and_eq_true] at hcond
    refine noNNN_cons_intro ?_ (noNNN_cons_intro ?_ (noNNN_cons_intro ?_
      (ih (noNNN_tail (noNNN_tail h)))))
    · intro h2
      obtain ⟨u, hu⟩ := take2_shape.mp h2.2
      simp only [List.cons.injEq] at hu
      exact absurd hu.1 (by decide)
    · intro h2
      exact absurd h2.1 (by decide)
    · intro h2
      rw [h2.1] at hcond
      exact absurd hcond.2 (by decide)
  | case2 a b t hcond ih =>
    rw [sentSpace, if_neg hcond]
    refine noNNN_cons_intro ?_ (ih (noNNN_tail h))
    intro h2
    rw [noNNN_cons, Bool.and_eq_true] at h
    exact bool_neg_elim h.1 (by
      rw [Bool.and_eq_true, decide_eq_true_eq, decide_eq_true_eq]
      exact ⟨h2.1, sentSpace_take2 h2.2⟩)
  | case3 l hshape =>
    rcases l with _ | ⟨a, t⟩
    · exact h
    · rcases t with _ | ⟨b, u⟩
      · exact h
      · exact absurd rfl (fun h2 => hshape a b u h2)

theorem sentSpace_noSpSp {l : List Char} (h : noSpSp l = true) :
    noSpSp (sentSpace l) = true := by
  induction l using sentSpace.induct with
  | case1 a b t hcond ih =>
    rw [sentSpace, if_pos hcond]
    rw [Bool.and_eq_true] at hcond
    refine pairOk_cons_intro ?_ (pairOk_cons_intro ?_ (pairOk_cons_intro ?_
      (ih (pairOk_tail (pairOk_tail h)))))
    · intro x _
      rw [not_ws_not_spTab (sentPunct_not_ws hcond.1)]
      simp
    · intro x hx
      rw [← Option.some.inj hx, upper_not_spTab hcond.2]
      simp
    · intro x _
      rw [upper_not_spTab hcond.2]
      simp
  | case2 a b t hcond ih =>
    rw [sentSpace, if_neg hcond]
    refine pairOk_cons_intro ?_ (ih (pairOk_tail h))
    intro x hx
    rw [sentSpace_head] at hx
    rw [← Option.some.inj hx]
    exact pairOk_head_elim h rfl
  | case3 l hshape =>
    rcases l with _ | ⟨a, t⟩
    · exact h
    · rcases t with _ | ⟨b, u⟩
      · exact h
      · exact absurd rfl (fun h2 => hshape a b u h2)

theorem sentSpace_noWsP {l : List Char} (h : noWsP l = true) :
    noWsP (sentSpace l) = true := by
  induction l using sentSpace.induct with
  | case1 a b t hcond ih =>
    rw [sentSpace, if_pos hcond]
    rw [Bool.and_eq_true] at hcond
    refine pairOk_cons_intro ?_ (pairOk_cons_intro ?_ (pairOk_cons_intro ?_
      (ih (pairOk_tail (pairOk_tail h)))))
    · intro x hx
      rw [← Option.some.inj hx]
      rw [show punct6 ' ' = false from by decide]
      simp
    · intro x hx
      rw [← Option.some.inj hx, upper_not_punct6 hcond.2]
      simp
    · intro x _
      rw [upper_not_ws hcond.2]
      simp
  | case2 a b t hcond ih =>
    rw [sentSpace, if_neg hcond]
    refine pairOk_cons_intro ?_ (ih (pairOk_tail h))
    intro x hx
    rw [sentSpace_head] at hx
    rw [← Option.some.inj hx]
    exact pairOk_head_elim h rfl
  | case3 l hshape =>
    rcases l with _ | ⟨a, t⟩
    · exact h
    · rcases t with _ | ⟨b, u⟩
      · exact h
      · exact absurd rfl (fun h2 => hshape a b u h2)

theorem sentSpace_capOK : ∀ {l : List Char} (s : CapSt), capOK s l = true →
    capOK s (sentSpace l) = true := by
  intro l
  induction l using sentSpace.induct with
  | case1 a b t hcond ih =>
    intro s h
    rw [sentSpace, if_pos hcond]
    rw [Bool.and_eq_true] at hcond
    rw [capOK, Bool.and_eq_true] at h
    obtain ⟨hcheck, h2⟩ := h
    rw [capOK, Bool.and_eq_true] at h2
    obtain ⟨hcheckb, h3⟩ := h2
    have hsa : capNext s a = CapSt.punct := capNext_punct hcond.1 s
    have hsb : capNext CapSt.punct b = CapSt.other :=
      capNext_plain (upper_not_sentPunct hcond.2) (upper_not_ws hcond.2) _
    rw [hsa, hsb] at h3
    rw [capOK, Bool.and_eq_true]
    refine ⟨hcheck, ?_⟩
    rw [hsa, capOK, Bool.and_eq_true]
    constructor
    · decide
    · rw [show capNext CapSt.punct ' ' = CapSt.punctWs from by decide,
        capOK, Bool.and_eq_true]
      constructor
      · rw [upper_not_lower hcond.2]
        simp
      · rw [capNext_plain (upper_not_sentPunct hcond.2) (upper_not_ws hcond.2) _]
        exact ih CapSt.other h3
  | case2 a b t hcond ih =>
    intro s h
    rw [sentSpace, if_neg hcond]
    rw [capOK, Bool.and_eq_true] at h ⊢
    exact ⟨h.1, ih (capNext s a) h.2⟩
  | case3 l hshape =>
    intro s h
    rcases l with _ | ⟨a, t⟩
    · exact h
    · rcases t with _ | ⟨b, u⟩
      · exact h
      · exact absurd rfl (fun h2 => hshape a b u h2)

end ChatBuddy

namespace ChatBuddy

/-! ### Case map arithmetic and the two greeting reductions -/

theorem toLower_toLower (c : Char) :
    Char.toLower (Char.toLower c) = Char.toLower c := by
  apply char_toNat_injective
  rw [toLower_toNat (Char.toLower c), toLower_toNat c]
  split_ifs <;> omega

theorem toUpper_toUpper (c : Char) :
    Char.toUpper (Char.toUpper c) = Char.toUpper c := by
  apply char_toNat_injective
  rw [toUpper_toNat (Char.toUpper c), toUpper_toNat c]
  split_ifs <;> omega

theorem toLower_toUpper (c : Char) :
    Char.toLower (Char.toUpper c) = Char.toLower c := by
  apply char_toNat_injective
  rw [toLower_toNat (Char.toUpper c), toUpper_toNat c, toLower_toNat c]
  split_ifs <;> omega

theorem toLower_comp : (Char.toLower ∘ Char.toLower) = Char.toLower :=
  funext toLower_toLower

theorem toLower_eq_space {c : Char} (h : Char.toLower c = ' ') : c = ' ' := by
  apply char_toNat_injective
  have h2 := congrArg Char.toNat h
  rw [toLower_toNat] at h2
  have h3 : (' ').toNat = 32 := rfl
  rw [h3] at h2
  show c.toNat = 32
  by_cases hc : 65 ≤ c.toNat ∧ c.toNat ≤ 90
  · rw [if_pos hc] at h2
    omega
  · rw [if_neg hc] at h2
    exact h2

theorem toLower_ws {c : Char} (h : jsWs c = true) : Char.toLower c = c := by
  apply char_toNat_injective
  rw [toLower_toNat]
  rw [jsWs_iff] at h
  rw [if_neg (by omega)]

theorem letter_of_toLower {c : Char}
    (h : 97 ≤ (Char.toLower c).toNat ∧ (Char.toLower c).toNat ≤ 122) :
    65 ≤ c.toNat ∧ c.toNat ≤ 90 ∨ 97 ≤ c.toNat ∧ c.toNat ≤ 122 := by
  rw [toLower_toNat] at h
  by_cases hc : 65 ≤ c.toNat ∧ c.toNat ≤ 90
  · exact Or.inl hc
  · rw [if_neg hc] at h
    exact Or.inr h

theorem letter_toUpper {c : Char}
    (h : 65 ≤ c.toNat ∧ c.toNat ≤ 90 ∨ 97 ≤ c.toNat ∧ c.toNat ≤ 122) :
    65 ≤ (Char.toUpper c).toNat ∧ (Char.toUpper c).toNat ≤ 90 := by
  rw [toUpper_toNat]
  rcases h with h2 | h2
  · rw [if_neg (by omega)]
    omega
  · rw [if_pos h2]
    omega

theorem letter_not_sentPunct {c : Char}
    (h : 65 ≤ c.toNat ∧ c.toNat ≤ 90 ∨ 97 ≤ c.toNat ∧ c.toNat ≤ 122) :
    sentPunct c = false := by
  cases hp : sentPunct c
  · rfl
  · rw [sentPunct_iff] at hp
    omega

theorem letter_not_ws {c : Char}
    (h : 65 ≤ c.toNat ∧ c.toNat ≤ 90 ∨ 97 ≤ c.toNat ∧ c.toNat ≤ 122) :
    jsWs c = false := by
  cases hp : jsWs c
  · rfl
  · rw [jsWs_iff] at hp
    omega

theorem upper_not_lower2 {c : Char} (h : 65 ≤ c.toNat ∧ c.toNat ≤ 90) :
    isLowerA c = false := by
  cases hp : isLowerA c
  · rfl
  · rw [isLowerA_iff] at hp
    omega

theorem takeWhile_all_append {p : Char → Bool} : ∀ {u v : List Char},
    (∀ d ∈ u, p d = true) → (∀ c, v.head? = some c → p c = false) →
    (u ++ v).takeWhile p = u := by
  intro u v
  induction u with
  | nil =>
    intro _ hv
    cases v with
    | nil => rfl
    | cons x w => exact List.takeWhile_cons_of_neg (by rw [hv x rfl]; simp)
  | cons a t ih =>
    intro hu hv
    rw [List.cons_append, List.takeWhile_cons_of_pos (hu a (List.mem_cons_self _ _)),
      ih (fun d hd => hu d (List.mem_cons_of_mem _ hd)) hv]

theorem dropWhile_all_append {p : Char → Bool} : ∀ {u v : List Char},
    (∀ d ∈ u, p d = true) → (∀ c, v.head? = some c → p c = false) →
    (u ++ v).dropWhile p = v := by
  intro u v
  induction u with
  | nil =>
    intro _ hv
    cases v with
    | nil => rfl
    | cons x w => exact List.dropWhile_cons_of_neg (by rw [hv x rfl]; simp)
  | cons a t ih =>
    intro hu hv
    rw [List.cons_append, List.dropWhile_cons_of_pos (hu a (List.mem_cons_self _ _)),
      ih (fun d hd => hu d (List.mem_cons_of_mem _ hd)) hv]

theorem greet_eq_hi {a b : Char} {l3 : List Char}
    (h1 : Char.toLower a = 'h') (h2 : Char.toLower b = 'i') :
    greet (a :: b :: ' ' :: l3) =
      (Char.toUpper a :: lowerL [b]) ++
        (lowerL ((' ' :: l3).takeWhile jsWs) ++ (' ' :: l3).dropWhile jsWs) := by
  have hhi : startsWithCI "hi ".data (a :: b :: ' ' :: l3) = true := by
    show (['h', 'i', ' '].isPrefixOf
      (Char.toLower a :: Char.toLower b :: Char.toLower ' ' :: lowerL l3)) = true
    rw [h1, h2]
    simp [List.isPrefixOf]
  unfold greet
  rw [if_pos (by simp [hhi])]
  simp only [hhi, if_true]
  rfl

theorem greet_eq_hello {a b c d e : Char} {l3 : List Char}
    (hhi2 : startsWithCI "hi ".data (a :: b :: c :: d :: e :: ' ' :: l3) = false)
    (h1 : Char.toLower a = 'h') (h2 : Char.toLower b = 'e')
    (h3 : Char.toLower c = 'l') (h4 : Char.toLower d = 'l')
    (h5 : Char.toLower e = 'o') :
    greet (a :: b :: c :: d :: e :: ' ' :: l3) =
      (Char.toUpper a :: lowerL [b, c, d, e]) ++
        (lowerL ((' ' :: l3).takeWhile jsWs) ++ (' ' :: l3).dropWhile jsWs) := by
  have hhe : startsWithCI "hello ".data (a :: b :: c :: d :: e :: ' ' :: l3) = true := by
    show (['h', 'e', 'l', 'l', 'o', ' '].isPrefixOf
      (Char.toLower a :: Char.toLower b :: Char.toLower c :: Char.toLower d ::
        Char.toLower e :: Char.toLower ' ' :: lowerL l3)) = true
    rw [h1, h2, h3, h4, h5]
    simp [List.isPrefixOf]
  unfold greet
  rw [if_pos (by simp [hhe])]
  simp only [hhi2, if_false, Bool.false_eq_true]
  rfl

end ChatBuddy

namespace ChatBuddy

/-! ### Structure of the greeting rewrite -/

theorem greet_cases (l : List Char) :
    greet l = l ∨
    ∃ c cs t, l = (c :: cs) ++ t ∧
      greet l = (Char.toUpper c :: lowerL cs) ++
        (lowerL (t.takeWhile jsWs) ++ t.dropWhile jsWs) ∧
      (∀ d ∈ c :: cs, 97 ≤ (Char.toLower d).toNat ∧ (Char.toLower d).toNat ≤ 122) ∧
      t.head? = some ' ' ∧
      ((startsWithCI "hi ".data l = true ∧ lowerL (c :: cs) = ['h', 'i']) ∨
       (startsWithCI "hi ".data l = false ∧
         lowerL (c :: cs) = ['h', 'e', 'l', 'l', 'o'])) := by
  by_cases hG : (startsWithCI "hi ".data l || startsWithCI "hello ".data l) = true
  · right
    by_cases hhi : startsWithCI "hi ".data l = true
    · have hp : (['h', 'i', ' '] : List Char) <+: lowerL l := by
        rw [← List.isPrefixOf_iff_prefix]
        exact hhi
      obtain ⟨s, hs⟩ := hp
      rcases l with _ | ⟨a, _ | ⟨b, _ | ⟨e, l3⟩⟩⟩
      · simp [lowerL] at hs
      · simp [lowerL] at hs
      · simp [lowerL] at hs
      · simp only [lowerL, List.map, List.cons_append, List.nil_append,
          List.cons.injEq] at hs
        obtain ⟨h1, h2, h3, _⟩ := hs
        have he : e = ' ' := toLower_eq_space h3.symm
        subst he
        refine ⟨a, [b], ' ' :: l3, rfl, greet_eq_hi h1.symm h2.symm, ?_, rfl,
          Or.inl ⟨hhi, ?_⟩⟩
        · intro d hd
          rcases List.mem_cons.mp hd with h4 | h4
          · rw [h4, ← h1]
            decide
          · rw [List.mem_singleton.mp h4, ← h2]
            decide
        · show [Char.toLower a, Char.toLower b] = ['h', 'i']
          rw [← h1, ← h2]
    · have hhe : startsWithCI "hello ".data l = true := by
        rcases (by simpa using hG :
          startsWithCI "hi ".data l = true ∨ startsWithCI "hello ".data l = true)
          with h2 | h2
        · exact absurd h2 hhi
        · exact h2
      have hp : (['h', 'e', 'l', 'l', 'o', ' '] : List Char) <+: lowerL l := by
        rw [← List.isPrefixOf_iff_prefix]
        exact hhe
      obtain ⟨s, hs⟩ := hp
      rcases l with _ | ⟨a, _ | ⟨b, _ | ⟨c2, _ | ⟨d2, _ | ⟨e2, _ | ⟨f2, l3⟩⟩⟩⟩⟩⟩
      · simp [lowerL] at hs
      · simp [lowerL] at hs
      · simp [lowerL] at hs
      · simp [lowerL] at hs
      · simp [lowerL] at hs
      · simp [lowerL] at hs
      · simp only [lowerL, List.map, List.cons_append, List.nil_append,
          List.cons.injEq] at hs
        obtain ⟨h1, h2, h3, h4, h5, h6, _⟩ := hs
        have hf : f2 = ' ' := toLower_eq_space h6.symm
        subst hf
        have hhi2 : startsWithCI "hi ".data
            (a :: b :: c2 :: d2 :: e2 :: ' ' :: l3) = false := by
          simpa using hhi
        refine ⟨a, [b, c2, d2, e2], ' ' :: l3, rfl,
          greet_eq_hello hhi2 h1.symm h2.symm h3.symm h4.symm h5.symm, ?_, rfl,
          Or.inr ⟨hhi2, ?_⟩⟩
        · intro d hd
          simp only [List.mem_cons, List.not_mem_nil, or_false] at hd
          rcases hd with rfl | rfl | rfl | rfl | rfl
          · rw [← h1]
            decide
          · rw [← h2]
            decide
          · rw [← h3]
            decide
          · rw [← h4]
            decide
          · rw [← h5]
            decide
        · show [Char.toLower a, Char.toLower b, Char.toLower c2, Char.toLower d2,
            Char.toLower e2] = ['h', 'e', 'l', 'l', 'o']
          rw [← h1, ← h2, ← h3, ← h4, ← h5]
  · left
    unfold greet
    rw [if_neg hG]

end ChatBuddy

namespace ChatBuddy

/-! ### Class transfer and the case predicates through greet -/

theorem forall2_classEq_lower_split (t : List Char) :
    List.Forall₂ ClassEq t (lowerL (t.takeWhile jsWs) ++ t.dropWhile jsWs) := by
  have h := forall2_append (forall₂_classEq_map_toLower (t.takeWhile jsWs))
    (forall₂_classEq_refl (t.dropWhile jsWs))
  rw [List.takeWhile_append_dropWhile] at h
  exact h

theorem forall2_classEq_greet (l : List Char) :
    List.Forall₂ ClassEq l (greet l) := by
  rcases greet_cases l with h | ⟨c, cs, t, hl, hg, _, _, _⟩
  · rw [h]
    exact forall₂_classEq_refl l
  · rw [hg, hl]
    exact forall2_append
      (List.Forall₂.cons (classEq_toUpper c) (forall₂_classEq_map_toLower cs))
      (forall2_classEq_lower_split t)

theorem lowerL_greet (l : List Char) : lowerL (greet l) = lowerL l := by
  rcases greet_cases l with h | ⟨c, cs, t, hl, hg, _, _, _⟩
  · rw [h]
  · have ht := (List.takeWhile_append_dropWhile jsWs t).symm
    rw [hg, hl]
    unfold lowerL
    simp only [List.map_append, List.map_cons, List.map_map, toLower_comp,
      toLower_toUpper]
    conv_rhs => rw [ht]
    rw [List.map_append]

theorem pairOk_append_allL {bad : Char → Char → Bool} : ∀ {u v : List Char},
    (∀ a ∈ u, ∀ b, bad a b = false) → pairOk bad v = true →
    pairOk bad (u ++ v) = true := by
  intro u v
  induction u with
  | nil =>
    intro _ hv
    exact hv
  | cons a t ih =>
    intro hu hv
    rw [List.cons_append]
    exact pairOk_cons_intro (fun b _ => hu a (List.mem_cons_self _ _) b)
      (ih (fun x hx b => hu x (List.mem_cons_of_mem _ hx) b) hv)

theorem greet_noPU {l : List Char} (h : noPU l = true) : noPU (greet l) = true := by
  rcases greet_cases l with hid | ⟨c, cs, t, hl, hg, hlet, _, _⟩
  · rw [hid]
    exact h
  · rw [hg]
    have hassoc : (Char.toUpper c :: lowerL cs) ++
        (lowerL (t.takeWhile jsWs) ++ t.dropWhile jsWs) =
        (Char.toUpper c :: (lowerL cs ++ lowerL (t.takeWhile jsWs))) ++
          t.dropWhile jsWs := by
      simp [List.append_assoc]
    rw [hassoc]
    refine pairOk_append_allL ?_ ?_
    · intro a ha b
      have hsp : sentPunct a = false := by
        rcases List.mem_cons.mp ha with h2 | h2
        · rw [h2]
          exact letter_not_sentPunct
            (Or.inl (letter_toUpper (letter_of_toLower (hlet c (List.mem_cons_self _ _)))))
        · rcases List.mem_append.mp h2 with h3 | h3
          · unfold lowerL at h3
            obtain ⟨e, he, rfl⟩ := List.mem_map.mp h3
            exact letter_not_sentPunct (Or.inr (hlet e (List.mem_cons_of_mem _ he)))
          · unfold lowerL at h3
            obtain ⟨e, he, rfl⟩ := List.mem_map.mp h3
            rw [toLower_ws (List.mem_takeWhile_imp he)]
            exact ws_not_sentPunct (List.mem_takeWhile_imp he)
      show (sentPunct a && isUpperA b) = false
      rw [hsp]
      simp
    · rw [hl] at h
      have h2 := pairOk_suffix (c :: cs) h
      have h3 : noPU (t.takeWhile jsWs ++ t.dropWhile jsWs) = true := by
        rw [List.takeWhile_append_dropWhile]
        exact h2
      exact pairOk_suffix _ h3

theorem capNext_other {c : Char} (h : sentPunct c = false) :
    capNext CapSt.other c = CapSt.other := by
  unfold capNext
  rw [if_neg (by rw [h]; simp)]
  by_cases hw : jsWs c = true
  · rw [if_pos hw]
  · rw [if_neg hw]

theorem capFold_other : ∀ {u : List Char}, (∀ d ∈ u, sentPunct d = false) →
    capFold CapSt.other u = CapSt.other := by
  intro u
  induction u with
  | nil =>
    intro _
    rfl
  | cons a t ih =>
    intro h
    show capFold (capNext CapSt.other a) t = CapSt.other
    rw [capNext_other (h a (List.mem_cons_self _ _))]
    exact ih (fun d hd => h d (List.mem_cons_of_mem _ hd))

theorem capOK_other_append : ∀ {u rest : List Char},
    (∀ d ∈ u, sentPunct d = false) → capOK CapSt.other rest = true →
    capOK CapSt.other (u ++ rest) = true := by
  intro u rest
  induction u with
  | nil =>
    intro _ h
    exact h
  | cons a t ih =>
    intro hu h
    rw [List.cons_append, capOK, Bool.and_eq_true]
    constructor
    · rfl
    · rw [capNext_other (hu a (List.mem_cons_self _ _))]
      exact ih (fun d hd => hu d (List.mem_cons_of_mem _ hd)) h

theorem greet_capOK {l : List Char} (h : capOK CapSt.start l = true) :
    capOK CapSt.start (greet l) = true := by
  rcases greet_cases l with hid | ⟨c, cs, t, hl, hg, hlet, _, _⟩
  · rw [hid]
    exact h
  · have hcl := letter_of_toLower (hlet c (List.mem_cons_self _ _))
    have hcu := letter_toUpper hcl
    have hlets : ∀ d ∈ c :: cs, sentPunct d = false := fun d hd =>
      letter_not_sentPunct (letter_of_toLower (hlet d hd))
    rw [hl, capOK_append, Bool.and_eq_true] at h
    have hfold : capFold CapSt.start (c :: cs) = CapSt.other := by
      show capFold (capNext CapSt.start c) cs = CapSt.other
      rw [capNext_plain (hlets c (List.mem_cons_self _ _)) (letter_not_ws hcl) _]
      exact capFold_other (fun d hd => hlets d (List.mem_cons_of_mem _ hd))
    rw [hfold] at h
    have ht2 : capOK CapSt.other (t.takeWhile jsWs ++ t.dropWhile jsWs) = true := by
      rw [List.takeWhile_append_dropWhile]
      exact h.2
    rw [capOK_append, Bool.and_eq_true] at ht2
    have hfw : capFold CapSt.other (t.takeWhile jsWs) = CapSt.other :=
      capFold_other (fun d hd => ws_not_sentPunct (List.mem_takeWhile_imp hd))
    rw [hfw] at ht2
    rw [hg]
    show capOK CapSt.start (Char.toUpper c ::
      (lowerL cs ++ (lowerL (t.takeWhile jsWs) ++ t.dropWhile jsWs))) = true
    rw [capOK, Bool.and_eq_true]
    constructor
    · rw [upper_not_lower2 hcu]
      simp
    · rw [capNext_plain (letter_not_sentPunct (Or.inl hcu)) (letter_not_ws (Or.inl hcu)) _]
      refine capOK_other_append ?_ (capOK_other_append ?_ ht2.2)
      · intro d hd
        unfold lowerL at hd
        obtain ⟨e, he, rfl⟩ := List.mem_map.mp hd
        exact letter_not_sentPunct (Or.inr (hlet e (List.mem_cons_of_mem _ he)))
      · intro d hd
        unfold lowerL at hd
        obtain ⟨e, he, rfl⟩ := List.mem_map.mp hd
        rw [toLower_ws (List.mem_takeWhile_imp he)]
        exact ws_not_sentPunct (List.mem_takeWhile_imp he)

end ChatBuddy

namespace ChatBuddy

/-! ### The greeting rewrite is idempotent -/

theorem greet_greet (l : List Char) : greet (greet l) = greet l := by
  rcases greet_cases l with hid | ⟨c, cs, t, hl, hg, hlet, hhead, hn⟩
  · rw [hid, hid]
  · obtain ⟨t2, rfl⟩ : ∃ t2, t = ' ' :: t2 := by
      cases t with
      | nil => exact absurd hhead (by simp)
      | cons x u => exact ⟨u, by rw [show x = ' ' from Option.some.inj hhead]⟩
    have htake : (' ' :: t2).takeWhile jsWs = ' ' :: t2.takeWhile jsWs :=
      List.takeWhile_cons_of_pos (by decide)
    have hdrop : (' ' :: t2).dropWhile jsWs = t2.dropWhile jsWs :=
      List.dropWhile_cons_of_pos (by decide)
    have hw2 : ∀ d ∈ lowerL (t2.takeWhile jsWs), jsWs d = true := by
      intro d hd
      unfold lowerL at hd
      obtain ⟨e, he, rfl⟩ := List.mem_map.mp hd
      rw [toLower_ws (List.mem_takeWhile_imp he)]
      exact List.mem_takeWhile_imp he
    have hr2 : ∀ x, (t2.dropWhile jsWs).head? = some x → jsWs x = false := by
      intro x hx
      have h2 := headOk_dropWhile t2
      rw [headOk_iff] at h2
      exact h2 x hx
    rcases hn with ⟨hhi, hcs⟩ | ⟨hhi, hcs⟩
    · rcases cs with _ | ⟨b, _ | ⟨x, cs3⟩⟩
      · simp [lowerL] at hcs
      · simp only [lowerL, List.map, List.cons.injEq, and_true] at hcs
        obtain ⟨hch, hbi⟩ := hcs
        have hshape : greet l = Char.toUpper c :: Char.toLower b :: ' ' ::
            (lowerL (t2.takeWhile jsWs) ++ t2.dropWhile jsWs) := by
          rw [hg, htake, hdrop]
          show (Char.toUpper c :: [Char.toLower b]) ++
            ((' ' :: lowerL (t2.takeWhile jsWs)) ++ t2.dropWhile jsWs) = _
          simp [List.append_assoc]
        rw [hshape, greet_eq_hi (by rw [toLower_toUpper]; exact hch)
          (by rw [toLower_toLower]; exact hbi)]
        rw [List.takeWhile_cons_of_pos (by decide : jsWs ' ' = true),
          List.dropWhile_cons_of_pos (by decide : jsWs ' ' = true),
          takeWhile_all_append hw2 hr2, dropWhile_all_append hw2 hr2,
          toUpper_toUpper]
        show (Char.toUpper c :: [Char.toLower (Char.toLower b)]) ++
          ((' ' :: lowerL (lowerL (t2.takeWhile jsWs))) ++ t2.dropWhile jsWs) = _
        rw [toLower_toLower]
        unfold lowerL
        rw [List.map_map, toLower_comp]
        simp [List.append_assoc]
      · simp [lowerL] at hcs
    · rcases cs with _ | ⟨b1, _ | ⟨b2, _ | ⟨b3, _ | ⟨b4, _ | ⟨b5, cs6⟩⟩⟩⟩⟩
      · simp [lowerL] at hcs
      · simp [lowerL] at hcs
      · simp [lowerL] at hcs
      · simp [lowerL] at hcs
      · simp only [lowerL, List.map, List.cons.injEq, and_true] at hcs
        obtain ⟨h1, h2, h3, h4, h5⟩ := hcs
        have hshape : greet l = Char.toUpper c :: Char.toLower b1 ::
            Char.toLower b2 :: Char.toLower b3 :: Char.toLower b4 :: ' ' ::
            (lowerL (t2.takeWhile jsWs) ++ t2.dropWhile jsWs) := by
          rw [hg, htake, hdrop]
          show (Char.toUpper c :: [Char.toLower b1, Char.toLower b2,
            Char.toLower b3, Char.toLower b4]) ++
            ((' ' :: lowerL (t2.takeWhile jsWs)) ++ t2.dropWhile jsWs) = _
          simp [List.append_assoc]
        have hhi2 : startsWithCI "hi ".data (Char.toUpper c :: Char.toLower b1 ::
            Char.toLower b2 :: Char.toLower b3 :: Char.toLower b4 :: ' ' ::
            (lowerL (t2.takeWhile jsWs) ++ t2.dropWhile jsWs)) = false := by
          rw [← hshape]
          unfold startsWithCI
          rw [lowerL_greet]
          exact hhi
        rw [hshape, greet_eq_hello hhi2 (by rw [toLower_toUpper]; exact h1)
          (by rw [toLower_toLower]; exact h2) (by rw [toLower_toLower]; exact h3)
          (by rw [toLower_toLower]; exact h4) (by rw [toLower_toLower]; exact h5)]
        rw [List.takeWhile_cons_of_pos (by decide : jsWs ' ' = true),
          List.dropWhile_cons_of_pos (by decide : jsWs ' ' = true),
          takeWhile_all_append hw2 hr2, dropWhile_all_append hw2 hr2,
          toUpper_toUpper]
        show (Char.toUpper c :: [Char.toLower (Char.toLower b1),
          Char.toLower (Char.toLower b2), Char.toLower (Char.toLower b3),
          Char.toLower (Char.toLower b4)]) ++
          ((' ' :: lowerL (lowerL (t2.takeWhile jsWs))) ++ t2.dropWhile jsWs) = _
        rw [toLower_toLower, toLower_toLower, toLower_toLower, toLower_toLower]
        unfold lowerL
        rw [List.map_map, toLower_comp]
        simp [List.append_assoc]
      · simp [lowerL] at hcs

end ChatBuddy

namespace ChatBuddy

/-! ### The pipeline output satisfies every normal form predicate -/

theorem formatPipeline_headOk (l : List Char) : headOk (formatPipeline l) = true := by
  unfold formatPipeline
  rw [← headOk_transfer (forall2_classEq_greet _)]
  apply sentSpace_headOk
  apply wsPunctRm_headOk
  show headOk (capRun CapSt.start _) = true
  rw [← headOk_transfer (forall₂_classEq_capRun _ _)]
  apply spSqueeze_headOk
  apply nlSqueeze_headOk
  apply crMap_headOk
  apply crlfCollapse_headOk
  exact jsTrim_headOk l

theorem formatPipeline_tailOk (l : List Char) : tailOk (formatPipeline l) = true := by
  unfold formatPipeline
  rw [← tailOk_transfer (forall2_classEq_greet _)]
  apply sentSpace_tailOk
  apply wsPunctRm_tailOk
  show tailOk (capRun CapSt.start _) = true
  rw [← tailOk_transfer (forall₂_classEq_capRun _ _)]
  apply spSqueeze_tailOk
  apply nlSqueeze_tailOk
  apply crMap_tailOk
  apply crlfCollapse_tailOk
  exact jsTrim_tailOk l

theorem formatPipeline_noCR (l : List Char) : '\r' ∉ formatPipeline l := by
  unfold formatPipeline
  apply noCR_transfer (forall2_classEq_greet _)
  apply sentSpace_noCR
  apply wsPunctRm_noCR
  show '\r' ∉ capRun CapSt.start _
  apply noCR_transfer (forall₂_classEq_capRun _ _)
  apply spSqueeze_noCR
  apply nlSqueeze_noCR
  exact crMap_noCR _

theorem formatPipeline_noNNN (l : List Char) : noNNN (formatPipeline l) = true := by
  unfold formatPipeline
  rw [← noNNN_transfer (forall2_classEq_greet _)]
  apply sentSpace_noNNN
  apply wsPunctRm_noNNN []
  rw [List.nil_append]
  show noNNN (capRun CapSt.start _) = true
  rw [← noNNN_transfer (forall₂_classEq_capRun _ _)]
  apply spSqueeze_noNNN
  exact nlSqueeze_noNNN _

theorem formatPipeline_noTab (l : List Char) : '\t' ∉ formatPipeline l := by
  unfold formatPipeline
  apply noTab_transfer (forall2_classEq_greet _)
  apply sentSpace_noTab
  apply wsPunctRm_noTab
  show '\t' ∉ capRun CapSt.start _
  apply noTab_transfer (forall₂_classEq_capRun _ _)
  exact spSqueeze_noTab _

theorem formatPipeline_noSpSp (l : List Char) : noSpSp (formatPipeline l) = true := by
  unfold formatPipeline
  rw [← noSpSp_transfer (forall2_classEq_greet _)]
  apply sentSpace_noSpSp
  apply wsPunctRm_noSpSp []
  rw [List.nil_append]
  show noSpSp (capRun CapSt.start _) = true
  rw [← noSpSp_transfer (forall₂_classEq_capRun _ _)]
  exact spSqueeze_noSpSp _

theorem formatPipeline_capOK (l : List Char) :
    capOK CapSt.start (formatPipeline l) = true := by
  unfold formatPipeline
  apply greet_capOK
  apply sentSpace_capOK
  apply wsPunctRm_capOK CapSt.start []
  rw [List.nil_append]
  exact capRun_capOK CapSt.start _

theorem formatPipeline_noWsP (l : List Char) : noWsP (formatPipeline l) = true := by
  unfold formatPipeline
  rw [← noWsP_transfer (forall2_classEq_greet _)]
  apply sentSpace_noWsP
  exact wsPunctRm_noWsP _ [] (by simp)

theorem formatPipeline_noPU (l : List Char) : noPU (formatPipeline l) = true := by
  unfold formatPipeline
  apply greet_noPU
  exact sentSpace_noPU _

theorem formatPipeline_greet (l : List Char) :
    greet (formatPipeline l) = formatPipeline l := by
  unfold formatPipeline
  exact greet_greet _

theorem pipeline_fix {y : List Char}
    (hh : headOk y = true) (ht : tailOk y = true) (hr : '\r' ∉ y)
    (hn : noNNN y = true) (htb : '\t' ∉ y) (hsp : noSpSp y = true)
    (hcap : capOK CapSt.start y = true) (hwp : noWsP y = true)
    (hpu : noPU y = true) (hgr : greet y = y) :
    formatPipeline y = y := by
  unfold formatPipeline
  rw [jsTrim_fix hh ht, crlfCollapse_fix hr, crMap_fix hr, nlSqueeze_fix hn,
    spSqueeze_fix htb hsp]
  show greet (sentSpace (wsPunctRm [] (capRun CapSt.start y))) = y
  rw [capRun_fix hcap, wsPunctRm_fix [] hwp (fun hne => absurd rfl hne),
    List.nil_append, sentSpace_fix hpu, hgr]

theorem formatPipeline_idem (l : List Char) :
    formatPipeline (formatPipeline l) = formatPipeline l :=
  pipeline_fix (formatPipeline_headOk l) (formatPipeline_tailOk l)
    (formatPipeline_noCR l) (formatPipeline_noNNN l) (formatPipeline_noTab l)
    (formatPipeline_noSpSp l) (formatPipeline_capOK l) (formatPipeline_noWsP l)
    (formatPipeline_noPU l) (formatPipeline_greet l)

/-- C7: formatTemplateContent is idempotent: applying the formatter to content
it has already formatted returns that content unchanged, so a second pass
through the cleanup pipeline of trimming, newline collapsing, whitespace
squeezing, capitalization, punctuation spacing and greeting normalization has
no further effect. -/
theorem c7_format_idempotent (s : String) :
    formatTemplateContent (formatTemplateContent s) = formatTemplateContent s := by
  unfold formatTemplateContent
  show String.mk (formatPipeline (formatPipeline s.data)) = _
  rw [formatPipeline_idem]

end ChatBuddy
